import Mathlib

/-! Discretising an AR(1) process: Tauchen (1986) and Rouwenhorst (1995).

A shallow embedding of `tauchen.cpp` and `rouwenhorst.cpp`.

Conventions of the embedding.

* `double` values are elements of a linearly ordered field `K`; every statement is about
  exact arithmetic in `K` (the reals are the intended instance, the rationals give an
  executable one).  Rounding is not modelled.
* The C library functions `sqrt` and `exp` are not part of the repository; the definitions take
  them as parameters `sqrt exp : K → K`.  Theorems that need their analytic properties are
  stated for `Real.sqrt` and `Real.exp`.
* `int N` is a natural number; the `int` expression `N-1` that is converted to `double` is
  written `(N : K) - 1`, and the array index `N-1` is the natural number `N - 1` (they agree
  for `N ≥ 1`).
* A C array is a function from indices to values; a store is `Function.update`.
* A loop `for (i = a; i < b; i++)` is a recursion on the number of iterations already run.
* Storage that the program declares without setting it (`double vZ[1][N]`,
  `arma::mat mPI_new(3,3)`) starts with arbitrary content, the parameter `junk`.
* An Armadillo operation that would be rejected at run time returns `none`.
-/

namespace Discretize

open Finset

variable {K : Type} [LinearOrderedField K]

/-! ## `tauchen.cpp`, section 5: the standard normal CDF `phi` -/

/-- The polynomial of Abramowitz–Stegun 7.1.26 in Horner form, exactly as line 148 of
`tauchen.cpp` writes it: `(((((a5*t + a4)*t) + a3)*t + a2)*t + a1)*t`. -/
def phiPoly (t : K) : K :=
  let a1 : K := 0.254829592
  let a2 : K := -0.284496736
  let a3 : K := 1.421413741
  let a4 : K := -1.453152027
  let a5 : K := 1.061405429
  (((((a5*t + a4)*t) + a3)*t + a2)*t + a1)*t

/-- The function `double phi(double x)` of `tauchen.cpp` (lines 130–151). -/
def phi (sqrt exp : K → K) (x : K) : K :=
  let p : K := 0.3275911
  -- Save the sign of x
  let sign : Int := if x < 0 then -1 else 1
  let x : K := |x| / sqrt 2.0
  -- A&S formula 7.1.26
  let t : K := 1.0 / (1.0 + p*x)
  let y : K := 1.0 - phiPoly t * exp (-x*x)
  0.5 * (1.0 + (sign : K) * y)

/-! ## `tauchen.cpp`, sections 2 and 3: grid and transition matrix -/

/-- Line 50: `sig_z = sqrt(pow(sig_e,2)/(1-pow(rho,2)))`. -/
def sig_z (sqrt : K → K) (rho sig_e : K) : K :=
  sqrt (sig_e ^ 2 / (1 - rho ^ 2))

/-- Line 51 of `tauchen.cpp`: `z_max = m*sig_z`. -/
def tauchen_z_max (sqrt : K → K) (m rho sig_e : K) : K :=
  m * sig_z sqrt rho sig_e

/-- Line 52 of `tauchen.cpp`: `z_min = -z_max`. -/
def tauchen_z_min (sqrt : K → K) (m rho sig_e : K) : K :=
  - tauchen_z_max sqrt m rho sig_e

/-- Line 53 of `tauchen.cpp`: `d = (z_max-z_min) / (N-1)`. -/
def tauchen_d (sqrt : K → K) (N : Nat) (m rho sig_e : K) : K :=
  (tauchen_z_max sqrt m rho sig_e - tauchen_z_min sqrt m rho sig_e) / ((N : K) - 1)

/-- Lines 54–57 of `tauchen.cpp`: the array `vZ[0][·]` after `vZ[0][0]=z_min; vZ[0][N-1]=z_max;`.
`junk` is the unspecified content of the freshly declared array. -/
def vZ_init (junk : Nat → K) (N : Nat) (z_min z_max : K) : Nat → K :=
  Function.update (Function.update junk 0 z_min) (N - 1) z_max

/-- Lines 59–62 of `tauchen.cpp`: the array after the iterations `i = 1, …, n` of
`for (int i=1; i<N-1; i++) vZ[0][i] = vZ[0][i-1]+d;`, started from the array `v`. -/
def vZ_loop (d : K) (v : Nat → K) : Nat → (Nat → K)
  | 0 => v
  | n + 1 => Function.update (vZ_loop d v n) (n + 1) (vZ_loop d v n n + d)

/-- The grid `vZ[0][·]` of `tauchen.cpp` after section 2: the loop runs for
`i = 1, …, N-2`, that is `N - 2` times. -/
def tauchen_vZ (sqrt : K → K) (junk : Nat → K) (N : Nat) (m rho sig_e : K) : Nat → K :=
  vZ_loop (tauchen_d sqrt N m rho sig_e)
    (vZ_init junk N (tauchen_z_min sqrt m rho sig_e) (tauchen_z_max sqrt m rho sig_e)) (N - 2)

/-- Lines 70–88 of `tauchen.cpp`: the value stored in `mPI[i][j]` by the body of the double
loop, for the grid `vZ`, increment `d` and CDF `phi`. -/
def mPI_entry (phi : K → K) (vZ : Nat → K) (N : Nat) (d rho sig_e : K) (i j : Nat) : K :=
  if j = 0 then
    phi ((vZ 0 + d/2 - rho * vZ i) / sig_e)
  else if j = N - 1 then
    1 - phi ((vZ (N - 1) - d/2 - rho * vZ i) / sig_e)
  else
    phi ((vZ j + d/2 - rho * vZ i) / sig_e) - phi ((vZ j - d/2 - rho * vZ i) / sig_e)

/-- The transition matrix `mPI` of `tauchen.cpp` after section 3. -/
def tauchen_mPI (sqrt : K → K) (phi : K → K) (junk : Nat → K) (N : Nat) (m rho sig_e : K)
    (i j : Nat) : K :=
  mPI_entry phi (tauchen_vZ sqrt junk N m rho sig_e) N (tauchen_d sqrt N m rho sig_e) rho sig_e i j

/-! ## `rouwenhorst.cpp`: the Armadillo operations it uses

Armadillo is a library outside the repository.  Its matrices are modelled by their size and
their elements; an operation that Armadillo rejects at run time (an index out of bounds, a size
mismatch) returns `none`. -/

/-- Modelled from the spec: Armadillo's `arma::mat` is a dense matrix "indexed by (row, col)";
the embedding keeps its two dimensions and the element at each index. -/
structure Mat (K : Type) where
  n_rows : Nat
  n_cols : Nat
  elem : Nat → Nat → K

/-- Modelled from the spec: Armadillo's `A.zeros(r,c)`, "a k×k zero matrix": the matrix is
resized to `r × c` and filled with zeros. -/
def Mat.zeros (r c : Nat) : Mat K :=
  ⟨r, c, fun _ _ => 0⟩

/-- Modelled from the spec: Armadillo's `A.submat(r1,c1,r2,c2) = B`, "embed M_prev at an
offset": the block of rows `r1..r2` and columns `c1..c2` of `A` (inclusive) is overwritten by
`B`; Armadillo rejects a block that is not inside `A` or whose shape differs from that of `B`. -/
def Mat.setSubmat (A : Mat K) (r1 c1 r2 c2 : Nat) (B : Mat K) : Option (Mat K) :=
  if r1 ≤ r2 ∧ c1 ≤ c2 ∧ r2 < A.n_rows ∧ c2 < A.n_cols ∧
      B.n_rows = r2 - r1 + 1 ∧ B.n_cols = c2 - c1 + 1 then
    some ⟨A.n_rows, A.n_cols, fun r c =>
      if r1 ≤ r ∧ r ≤ r2 ∧ c1 ≤ c ∧ c ≤ c2 then B.elem (r - r1) (c - c1) else A.elem r c⟩
  else none

/-- Modelled from the spec: Armadillo's `A.submat(r1,c1,r2,c2)` read as a value: the block of
rows `r1..r2` and columns `c1..c2` of `A`; Armadillo rejects a block that is not inside `A`. -/
def Mat.getSubmat (A : Mat K) (r1 c1 r2 c2 : Nat) : Option (Mat K) :=
  if r1 ≤ r2 ∧ c1 ≤ c2 ∧ r2 < A.n_rows ∧ c2 < A.n_cols then
    some ⟨r2 - r1 + 1, c2 - c1 + 1, fun r c => A.elem (r1 + r) (c1 + c)⟩
  else none

/-- Modelled from the spec: Armadillo's `k * A`, "scale": every element is multiplied by `k`. -/
def Mat.smul (k : K) (A : Mat K) : Mat K :=
  ⟨A.n_rows, A.n_cols, fun r c => k * A.elem r c⟩

/-- Modelled from the spec: Armadillo's `A + B`, "sum": element-wise addition; Armadillo rejects
operands of different sizes. -/
def Mat.add (A B : Mat K) : Option (Mat K) :=
  if A.n_rows = B.n_rows ∧ A.n_cols = B.n_cols then
    some ⟨A.n_rows, A.n_cols, fun r c => A.elem r c + B.elem r c⟩
  else none

/-- Modelled from the spec: Armadillo's `arma::linspace<arma::vec>(a,b,N)`, "N equally spaced
points from a to b", with spacing `(b-a)/(N-1)`; the value at index `i`. -/
def linspace (a b : K) (N : Nat) (i : Nat) : K :=
  a + (i : K) * ((b - a) / ((N : K) - 1))

/-! ## `rouwenhorst.cpp`, sections 2 and 3 -/

/-- Line 45 of `rouwenhorst.cpp`: `z_max = sig_z*sqrt(N-1)`. -/
def rouwenhorst_z_max (sqrt : K → K) (N : Nat) (rho sig_e : K) : K :=
  sig_z sqrt rho sig_e * sqrt ((N : K) - 1)

/-- Line 46 of `rouwenhorst.cpp`: `z_min = -z_max`. -/
def rouwenhorst_z_min (sqrt : K → K) (N : Nat) (rho sig_e : K) : K :=
  - rouwenhorst_z_max sqrt N rho sig_e

/-- Line 47 of `rouwenhorst.cpp`: `p = (1+rho)/2` (and `q = p`). -/
def rouwenhorst_p (rho : K) : K :=
  (1 + rho) / 2

/-- Line 49 of `rouwenhorst.cpp`: `vZ = arma::linspace<arma::vec>(z_min,z_max,N)`. -/
def rouwenhorst_vZ (sqrt : K → K) (N : Nat) (rho sig_e : K) (i : Nat) : K :=
  linspace (rouwenhorst_z_min sqrt N rho sig_e) (rouwenhorst_z_max sqrt N rho sig_e) N i

/-- Line 55 of `rouwenhorst.cpp`: `arma::mat mPI_old = {{p,1-p},{1-q,q}}`. -/
def mPI_base (p q : K) : Mat K :=
  ⟨2, 2, fun r c => if r = 0 then (if c = 0 then p else 1 - p) else (if c = 0 then 1 - q else q)⟩

/-- The two matrices of `rouwenhorst.cpp` that live across loop iterations. -/
structure RState (K : Type) where
  mPI_old : Mat K
  mPI_new : Mat K

/-- Lines 66–83 of `rouwenhorst.cpp`: the body of the loop for the loop variable `i`.
The four work matrices `mPI_new1..4` are zeroed at the top of every iteration, so they are
local to the body. -/
def rouwenhorst_body (p q : K) (i : Nat) (s : RState K) : Option (RState K) := do
  let mPI_new1 ← (Mat.zeros i i).setSubmat 0 0 (i-2) (i-2) s.mPI_old
  let mPI_new2 ← (Mat.zeros i i).setSubmat 0 1 (i-2) (i-1) s.mPI_old
  let mPI_new3 ← (Mat.zeros i i).setSubmat 1 0 (i-1) (i-2) s.mPI_old
  let mPI_new4 ← (Mat.zeros i i).setSubmat 1 1 (i-1) (i-1) s.mPI_old
  let s12 ← (Mat.smul p mPI_new1).add (Mat.smul (1-p) mPI_new2)
  let s123 ← s12.add (Mat.smul (1-q) mPI_new3)
  let mPI_new ← s123.add (Mat.smul q mPI_new4)
  let block ← mPI_new.getSubmat 1 0 (i-2) (i-1)
  let mPI_new ← mPI_new.setSubmat 1 0 (i-2) (i-1) (Mat.smul 0.5 block) -- divide by 2
  pure ⟨mPI_new, mPI_new⟩

/-- Lines 64–84 of `rouwenhorst.cpp`: the state after the iterations `i = 3, …, n+2` of
`for (int i=3;i<N+1; i++)`, started from the state `s`. -/
def rouwenhorst_loop (p q : K) (s : RState K) : Nat → Option (RState K)
  | 0 => some s
  | n + 1 => (rouwenhorst_loop p q s n).bind (rouwenhorst_body p q (n + 3))

/-- Lines 55–84 of `rouwenhorst.cpp` for given `p`, `q`: `mPI_old` is the 2×2 base,
`mPI_new` is the matrix declared by `arma::mat mPI_new(3,3)` whose elements `junk` the program
never sets, and the loop runs for `i = 3, …, N`, that is `N - 2` times. -/
def rouwenhorst_run (junk : Nat → Nat → K) (N : Nat) (p q : K) : Option (RState K) :=
  rouwenhorst_loop p q ⟨mPI_base p q, ⟨3, 3, junk⟩⟩ (N - 2)

/-- The matrix built by the recursion: `mPI_old` after the loop (`none` if Armadillo
rejected an operation). -/
def rouwenhorst_mPI_old (junk : Nat → Nat → K) (N : Nat) (p q : K) : Option (Mat K) :=
  (rouwenhorst_run junk N p q).map RState.mPI_old

/-- Sections 1–4 of `rouwenhorst.cpp`: the matrix the output section reads, `mPI_new`, for the
inputs `N` and `rho` (line 47 sets `p = (1+rho)/2` and `q = p`). -/
def rouwenhorst_output (junk : Nat → Nat → K) (N : Nat) (rho : K) : Option (Mat K) :=
  (rouwenhorst_run junk N (rouwenhorst_p rho) (rouwenhorst_p rho)).map RState.mPI_new

/-! ## The two programs as a whole -/

/-- What either program prints: the grid and the transition matrix (the `MarkovChain` of the
specification). -/
structure MarkovChain (K : Type) where
  grid : Nat → K
  matrix : Nat → Nat → K

/-- The function `main` of `tauchen.cpp` (lines 30–117) on the parameters of section 1.
It contains no test of its parameters and a single exit, `return 0`, reached after the grid
and the matrix have been computed and printed; `none` would be a run that produces no result. -/
def tauchen_main (sqrt exp : K → K) (junk : Nat → K) (N : Nat) (m rho sig_e : K) :
    Option (MarkovChain K) :=
  some ⟨tauchen_vZ sqrt junk N m rho sig_e,
    tauchen_mPI sqrt (phi sqrt exp) junk N m rho sig_e⟩

/-- The function `main` of `rouwenhorst.cpp` (lines 27–112) on the parameters of section 1.
It contains no test of its parameters; it reaches `return 0` with the grid `vZ` and the matrix
`mPI_new` unless an Armadillo operation of the loop is rejected (`none`). -/
def rouwenhorst_main (sqrt : K → K) (junk : Nat → Nat → K) (N : Nat) (rho sig_e : K) :
    Option (MarkovChain K) :=
  (rouwenhorst_output junk N rho).map fun M => ⟨rouwenhorst_vZ sqrt N rho sig_e, M.elem⟩

/-! ## The recursion in the words of the specification (section 4.3, step 4) -/

/-- The specification's "k×k zero matrix" with "M_prev embedded at an offset": the
`(k-1)×(k-1)` matrix `M` copied to the rows `r0..r0+k-2` and columns `c0..c0+k-2`. -/
def spec_embed (k : Nat) (M : Nat → Nat → K) (r0 c0 : Nat) (r c : Nat) : K :=
  if r0 ≤ r ∧ r ≤ r0 + (k - 2) ∧ c0 ≤ c ∧ c ≤ c0 + (k - 2) then M (r - r0) (c - c0) else 0

/-- The specification's step for size `k`: "Combine: M_k = p·(top-left embed) +
(1−p)·(top-right embed) + (1−q)·(bottom-left embed) + q·(bottom-right embed)", then "rows
1..k−2 get their values divided by 2". -/
def spec_step (p q : K) (k : Nat) (M : Nat → Nat → K) (r c : Nat) : K :=
  let M_k : K := p * spec_embed k M 0 0 r c + (1 - p) * spec_embed k M 0 1 r c
    + (1 - q) * spec_embed k M 1 0 r c + q * spec_embed k M 1 1 r c
  if 1 ≤ r ∧ r ≤ k - 2 then M_k / 2 else M_k

/-- The result of applying the specification's step `s` times, for the sizes `3, …, s+2`,
starting from the 2×2 base `[[p,1−p],[1−q,q]]`. -/
def spec_recursion (p q : K) : Nat → Nat → Nat → K
  | 0 => fun r c => if r = 0 then (if c = 0 then p else 1 - p) else (if c = 0 then 1 - q else q)
  | s + 1 => spec_step p q (s + 3) (spec_recursion p q s)

/-! ## Auxiliary definitions used in the proofs -/

/-- The quantity `P(t)·exp(-u²)` of `phi` for a non-negative argument `x`, with `u = x/sqrt 2`
and `t = 1/(1 + p·u)`. -/
def phiTail (sqrt exp : K → K) (x : K) : K :=
  phiPoly (1.0 / (1.0 + 0.3275911 * (x / sqrt 2.0))) * exp (-(x / sqrt 2.0) * (x / sqrt 2.0))

/-- The weighted combination of line 78 of `rouwenhorst.cpp` at `(r,c)`. -/
def combElem (p q : K) (i : Nat) (e : Nat → Nat → K) (r c : Nat) : K :=
  (((if r ≤ i - 2 ∧ c ≤ i - 2 then p * e r c else 0)
    + if r ≤ i - 2 ∧ 1 ≤ c ∧ c ≤ i - 1 then (1 - p) * e r (c - 1) else 0)
    + if 1 ≤ r ∧ r ≤ i - 1 ∧ c ≤ i - 2 then (1 - q) * e (r - 1) c else 0)
    + if 1 ≤ r ∧ r ≤ i - 1 ∧ 1 ≤ c ∧ c ≤ i - 1 then q * e (r - 1) (c - 1) else 0

/-- The element at `(r,c)` of the matrix left by one iteration of the loop with loop variable
`i`, from the elements `e` of `mPI_old`: the combination, halved on rows `1..i-2`. -/
def stepElem (p q : K) (i : Nat) (e : Nat → Nat → K) (r c : Nat) : K :=
  if 1 ≤ r ∧ r ≤ i - 2 ∧ c ≤ i - 1 then 0.5 * combElem p q i e r c
  else combElem p q i e r c

/-- The elements of `mPI_old` after `n` iterations of the loop, started from the 2×2 base. -/
def rouwElem (p q : K) : Nat → Nat → Nat → K
  | 0 => (mPI_base p q).elem
  | n + 1 => stepElem p q (n + 3) (rouwElem p q n)

/-! ## Reference objects for the accuracy of `phi`

The true normal distribution function and the series used to enclose it.  They are
mathematical objects that the program does not compute. -/

/-- The standard normal cumulative distribution function `Φ`, as the library defines it: the
cumulative distribution function of the Gaussian measure of mean 0 and variance 1. -/
noncomputable def stdNormalCDF (x : ℝ) : ℝ :=
  ProbabilityTheory.cdf (ProbabilityTheory.gaussianReal 0 1) x

/-- Partial sum of the exponential series at `-y`: `Σ_{k<n} (-y)^k / k!`. -/
def expSum (n : Nat) (y : K) : K :=
  ∑ k in range n, (-y) ^ k / (Nat.factorial k : K)

/-- Partial sum of the series of `(√π/2)·erf`: `Σ_{k<n} (-1)^k u^(2k+1) / (k! (2k+1))`. -/
def erfSum (n : Nat) (u : K) : K :=
  ∑ k in range n, (-1) ^ k * u ^ (2 * k + 1) / ((Nat.factorial k : K) * (2 * (k : K) + 1))

/-- The factor `2/√π`. -/
noncomputable def kappa : ℝ := 2 / Real.sqrt Real.pi

/-- The complementary error function written with the normal CDF:
`erfc(u) = 2·(1 - Φ(√2·u))`. -/
noncomputable def erfcN (u : ℝ) : ℝ := 2 * (1 - stdNormalCDF (Real.sqrt 2 * u))

/-- The argument `t = 1/(1 + p·u)` of the polynomial in `phi`. -/
def tOf (u : K) : K := 1.0 / (1.0 + 0.3275911 * u)

/-- The quantity `P(t)·exp(-u²)` of `phi` as a function of `u`. -/
def Qf (exp : K → K) (u : K) : K := phiPoly (tOf u) * exp (-u * u)

/-- The polynomial `p·t²·P'(t) + (2/p)·(1-t)·P(t)/t`, for which
`d/du (erfc(u) - P(t)·exp(-u²)) = exp(-u²)·(rhoPoly t - 2/√π)`. -/
def rhoPoly (t : K) : K :=
  0.3275911 * t ^ 2 * (0.254829592 + 2 * (-0.284496736) * t + 3 * 1.421413741 * t ^ 2
      + 4 * (-1.453152027) * t ^ 3 + 5 * 1.061405429 * t ^ 4)
    + 2 / 0.3275911 * (1 - t) * (0.254829592 + (-0.284496736) * t + 1.421413741 * t ^ 2
      + (-1.453152027) * t ^ 3 + 1.061405429 * t ^ 4)

/-- The error of the approximation of `erfc`: `erfc(u) - P(t)·exp(-u²)`. -/
noncomputable def Gf (u : ℝ) : ℝ := erfcN u - Qf Real.exp u

/-! ## The Tauchen grid -/

/-- After `n` iterations the loop has written `v 0 + k*d` into every slot `k ≤ n` and left the
other slots alone. -/
theorem vZ_loop_apply (d : K) (v : Nat → K) (n k : Nat) :
    vZ_loop d v n k = if k ≤ n then v 0 + (k : K) * d else v k := by
  induction n generalizing k with
  | zero =>
    by_cases hk : k = 0
    · subst hk; simp [vZ_loop]
    · have : ¬ k ≤ 0 := by omega
      simp [vZ_loop, this]
  | succ n ih =>
    by_cases hk : k = n + 1
    · subst hk
      have h1 := ih n
      simp only [le_refl, if_true] at h1
      simp only [vZ_loop, Function.update_same, h1, if_true, le_refl]
      push_cast
      ring
    · have hne : k ≠ n + 1 := hk
      simp only [vZ_loop, Function.update_noteq hne, ih k]
      by_cases hkn : k ≤ n
      · have : k ≤ n + 1 := by omega
        simp [hkn, this]
      · have : ¬ k ≤ n + 1 := by omega
        simp [hkn, this]

/-- The grid built from `z_min`, `z_max` with the increment `(z_max - z_min)/(N-1)` is
`z_min + i*d` at every index, the directly assigned last one included. -/
theorem vZ_grid_closed_form (junk : Nat → K) (N : Nat) (z_min z_max : K) (hN : 2 ≤ N)
    (i : Nat) (hi : i < N) :
    vZ_loop ((z_max - z_min) / ((N : K) - 1)) (vZ_init junk N z_min z_max) (N - 2) i
      = z_min + (i : K) * ((z_max - z_min) / ((N : K) - 1)) := by
  have hN1 : ((N : K) - 1) ≠ 0 := by
    have : (2 : K) ≤ (N : K) := by exact_mod_cast hN
    intro h
    linarith
  have h0 : vZ_init junk N z_min z_max 0 = z_min := by
    have : (0 : Nat) ≠ N - 1 := by omega
    simp [vZ_init, Function.update_noteq this]
  rw [vZ_loop_apply, h0]
  by_cases hle : i ≤ N - 2
  · simp [hle]
  · have hiN : i = N - 1 := by omega
    have hcast : ((N - 1 : Nat) : K) = (N : K) - 1 := by
      rw [Nat.cast_sub (by omega)]; simp
    simp only [hle, if_false]
    subst hiN
    simp only [vZ_init, Function.update_same]
    rw [hcast]
    field_simp

/-- The program's grid in closed form. -/
theorem tauchen_vZ_apply (sqrt : K → K) (junk : Nat → K) (N : Nat) (m rho sig_e : K)
    (hN : 2 ≤ N) (i : Nat) (hi : i < N) :
    tauchen_vZ sqrt junk N m rho sig_e i
      = tauchen_z_min sqrt m rho sig_e + (i : K) * tauchen_d sqrt N m rho sig_e := by
  unfold tauchen_vZ tauchen_d
  exact vZ_grid_closed_form junk N _ _ hN i hi

/-! ## Tauchen: rows sum to one -/

/-- Telescoping: a left tail, interior differences whose lower boundary is the previous upper
boundary, and a right tail add up to one. -/
theorem sum_tail_diff_tail (b : Nat → K) (f : Nat → K) (n : Nat)
    (h0 : f 0 = b 0) (hmid : ∀ j, j < n → f (j + 1) = b (j + 1) - b j)
    (hlast : f (n + 1) = 1 - b n) :
    ∑ j in range (n + 2), f j = 1 := by
  rw [Finset.sum_range_succ, Finset.sum_range_succ', h0, hlast]
  have : ∑ j in range n, f (j + 1) = ∑ j in range n, (b (j + 1) - b j) :=
    Finset.sum_congr rfl (fun j hj => hmid j (Finset.mem_range.mp hj))
  rw [this, Finset.sum_range_sub]
  ring

/-- C1. Tauchen row-stochasticity: for every `N ≥ 2`, all `rho`, `sig_e`, `m`, and whatever
function stands for `phi` (and for `sqrt`), every row `i < N` of the Tauchen transition matrix
`mPI` sums to exactly 1 in exact arithmetic. -/
theorem tauchen_row_sum_eq_one (sqrt phi : K → K) (junk : Nat → K) (N : Nat) (m rho sig_e : K)
    (hN : 2 ≤ N) (i : Nat) (hi : i < N) :
    ∑ j in range N, tauchen_mPI sqrt phi junk N m rho sig_e i j = 1 := by
  obtain ⟨n, rfl⟩ : ∃ n, N = n + 2 := ⟨N - 2, by omega⟩
  set g := tauchen_vZ sqrt junk (n + 2) m rho sig_e with hg
  set d := tauchen_d sqrt (n + 2) m rho sig_e with hd
  have hgrid : ∀ k, k < n + 2 → g k = g 0 + (k : K) * d := by
    intro k hk
    rw [hg, tauchen_vZ_apply sqrt junk (n + 2) m rho sig_e hN k hk,
      tauchen_vZ_apply sqrt junk (n + 2) m rho sig_e hN 0 (by omega)]
    simp
  apply sum_tail_diff_tail (fun k => phi ((g k + d / 2 - rho * g i) / sig_e))
  · simp [tauchen_mPI, mPI_entry, ← hg, ← hd]
  · intro j hj
    have h1 : j + 1 ≠ 0 := by omega
    have h2 : j + 1 ≠ n + 2 - 1 := by omega
    have h3 : g (j + 1) - d / 2 = g j + d / 2 := by
      rw [hgrid (j + 1) (by omega), hgrid j (by omega)]
      push_cast
      ring
    simp only [tauchen_mPI, mPI_entry, ← hg, ← hd, h1, h2, if_false, h3]
  · have h1 : n + 1 ≠ 0 := by omega
    have h3 : g (n + 1) - d / 2 = g n + d / 2 := by
      rw [hgrid (n + 1) (by omega), hgrid n (by omega)]
      push_cast
      ring
    have h4 : n + 2 - 1 = n + 1 := by omega
    simp only [tauchen_mPI, mPI_entry, ← hg, ← hd, h1, h4, if_false, if_true, h3]

/-- Witness for C1: `N = 5`, `m = 3`, `rho = 0.95`, `sig_e = 0.007`, row 2, with the
program's own `phi`. -/
theorem tauchen_row_sum_eq_one_witness :
    2 ≤ 5 ∧ 2 < 5 ∧
    ∑ j in range 5, tauchen_mPI Real.sqrt (phi Real.sqrt Real.exp) (fun _ => 0) 5
      (3 : ℝ) 0.95 0.007 2 j = 1 :=
  ⟨by norm_num, by norm_num,
    tauchen_row_sum_eq_one Real.sqrt (phi Real.sqrt Real.exp) (fun _ => 0) 5 3 0.95 0.007
      (by norm_num) 2 (by norm_num)⟩

/-- C10. The Tauchen grid is equally spaced and hits both endpoints: for every `N ≥ 2` and
every index `i < N`, `vZ[i] = z_min + i*d` with `d = (z_max - z_min)/(N-1)`; the first point
is `z_min`, the last is `z_max`, and consecutive points (the last pair included) differ by
exactly `d`. -/
theorem tauchen_grid_equally_spaced (sqrt : K → K) (junk : Nat → K) (N : Nat) (m rho sig_e : K)
    (hN : 2 ≤ N) (i : Nat) (hi : i < N) :
    tauchen_vZ sqrt junk N m rho sig_e i
        = tauchen_z_min sqrt m rho sig_e + (i : K) * tauchen_d sqrt N m rho sig_e
      ∧ tauchen_d sqrt N m rho sig_e
        = (tauchen_z_max sqrt m rho sig_e - tauchen_z_min sqrt m rho sig_e) / ((N : K) - 1)
      ∧ tauchen_vZ sqrt junk N m rho sig_e 0 = tauchen_z_min sqrt m rho sig_e
      ∧ tauchen_vZ sqrt junk N m rho sig_e (N - 1) = tauchen_z_max sqrt m rho sig_e
      ∧ (i + 1 < N → tauchen_vZ sqrt junk N m rho sig_e (i + 1)
          - tauchen_vZ sqrt junk N m rho sig_e i = tauchen_d sqrt N m rho sig_e) := by
  refine ⟨tauchen_vZ_apply sqrt junk N m rho sig_e hN i hi, rfl, ?_, ?_, ?_⟩
  · rw [tauchen_vZ_apply sqrt junk N m rho sig_e hN 0 (by omega)]
    simp
  · unfold tauchen_vZ
    rw [vZ_loop_apply]
    have h : ¬ N - 1 ≤ N - 2 := by omega
    simp [h, vZ_init]
  · intro hi1
    rw [tauchen_vZ_apply sqrt junk N m rho sig_e hN (i + 1) hi1,
      tauchen_vZ_apply sqrt junk N m rho sig_e hN i hi]
    push_cast
    ring

/-- Witness for C10: `N = 5`, `m = 3`, `rho = 0.95`, `sig_e = 0.007`, index 3. -/
theorem tauchen_grid_equally_spaced_witness :
    2 ≤ 5 ∧ 3 < 5 ∧
    tauchen_vZ Real.sqrt (fun _ => 0) 5 (3 : ℝ) 0.95 0.007 3
      = tauchen_z_min Real.sqrt (3 : ℝ) 0.95 0.007
        + ((3 : Nat) : ℝ) * tauchen_d Real.sqrt 5 (3 : ℝ) 0.95 0.007 :=
  ⟨by norm_num, by norm_num,
    (tauchen_grid_equally_spaced Real.sqrt (fun _ => 0) 5 3 0.95 0.007
      (by norm_num) 3 (by norm_num)).1⟩

/-! ## The function `phi` -/

theorem phi_of_nonneg (sqrt exp : K → K) (x : K) (hx : 0 ≤ x) :
    phi sqrt exp x = 1 - phiTail sqrt exp x / 2 := by
  have h : ¬ x < 0 := not_lt.mpr hx
  simp only [phi, phiTail, h, if_false, abs_of_nonneg hx]
  norm_num
  ring

theorem phi_of_neg (sqrt exp : K → K) (x : K) (hx : x < 0) :
    phi sqrt exp x = phiTail sqrt exp (-x) / 2 := by
  simp only [phi, phiTail, hx, if_true, abs_of_neg hx]
  norm_num
  ring

/-- C7 (amended). At the origin `t = 1` and `exp(0) = 1`, so
`phi(0) = 0.5*(2 - (a1+a2+a3+a4+a5))`; the five coefficients add up to `0.999999999`, hence
`phi(0) = 0.5000000005`, which is within `5e-10` of one half but not equal to it. -/
theorem phi_zero_value :
    phi Real.sqrt Real.exp 0
        = 0.5 * (2 - (0.254829592 + -0.284496736 + 1.421413741 + -1.453152027 + 1.061405429))
      ∧ phi Real.sqrt Real.exp 0 = 0.5000000005
      ∧ |phi Real.sqrt Real.exp 0 - 0.5| ≤ 0.0000000005 := by
  have h : phi Real.sqrt Real.exp 0 = 0.5000000005 := by norm_num [phi, phiPoly]
  refine ⟨?_, h, ?_⟩
  · rw [h]; norm_num
  · rw [h]; norm_num [abs_le]

/-- C7 (as stated, refuted). The value of `phi` at the origin is not one half. -/
theorem phi_zero_ne_half : phi Real.sqrt Real.exp 0 ≠ 0.5 := by
  norm_num [phi, phiPoly]

/-- C6 (as stated, refuted). At `x = 0` the reflection identity fails: the sign test `x < 0`
is false for both `0` and `-0`, and `phi(0) + phi(0) = 1.000000001`. -/
theorem phi_reflection_fails_at_zero :
    phi Real.sqrt Real.exp (-0) ≠ 1 - phi Real.sqrt Real.exp 0 := by
  norm_num [phi, phiPoly]

/-- C6 (amended). Reflection symmetry away from the origin: for every `x ≠ 0`,
`phi(-x) = 1 - phi(x)`, whatever functions stand for `sqrt` and `exp`. -/
theorem phi_reflection (sqrt exp : K → K) (x : K) (hx : x ≠ 0) :
    phi sqrt exp (-x) = 1 - phi sqrt exp x := by
  rcases lt_or_gt_of_ne hx with h | h
  · have h' : 0 ≤ -x := by linarith
    rw [phi_of_nonneg sqrt exp (-x) h', phi_of_neg sqrt exp x h]
  · have h' : -x < 0 := by linarith
    rw [phi_of_neg sqrt exp (-x) h', phi_of_nonneg sqrt exp x (le_of_lt h)]
    simp

/-- Witness for C6 (amended): `x = 1`. -/
theorem phi_reflection_witness :
    (1 : ℝ) ≠ 0 ∧ phi Real.sqrt Real.exp (-1) = 1 - phi Real.sqrt Real.exp 1 :=
  ⟨one_ne_zero, phi_reflection Real.sqrt Real.exp 1 one_ne_zero⟩

theorem phiPoly_deriv_pos (t : ℝ) :
    0 < 0.254829592 + 2 * (-0.284496736) * t + 3 * 1.421413741 * t^2
      + 4 * (-1.453152027) * t^3 + 5 * 1.061405429 * t^4 := by
  nlinarith [sq_nonneg (t^2 - t/2), sq_nonneg (t^2 - 3*t/5), sq_nonneg t,
    sq_nonneg (t - 1/10), sq_nonneg (t - 1/5)]

theorem phiPoly_hasDerivAt (t : ℝ) :
    HasDerivAt (phiPoly : ℝ → ℝ) (0.254829592 + 2 * (-0.284496736) * t + 3 * 1.421413741 * t^2
      + 4 * (-1.453152027) * t^3 + 5 * 1.061405429 * t^4) t := by
  have h : (phiPoly : ℝ → ℝ) = fun t => 0.254829592 * t + (-0.284496736) * t^2
      + 1.421413741 * t^3 + (-1.453152027) * t^4 + 1.061405429 * t^5 := by
    funext t; simp only [phiPoly]; ring
  rw [h]
  have := ((((hasDerivAt_id t).const_mul (0.254829592:ℝ)).add
    ((hasDerivAt_pow 2 t).const_mul (-0.284496736:ℝ))).add
    ((hasDerivAt_pow 3 t).const_mul (1.421413741:ℝ))).add
    ((hasDerivAt_pow 4 t).const_mul (-1.453152027:ℝ)) |>.add
    ((hasDerivAt_pow 5 t).const_mul (1.061405429:ℝ))
  convert this using 1
  · simp; ring

theorem phiPoly_strictMono : StrictMono (phiPoly : ℝ → ℝ) := by
  apply strictMono_of_deriv_pos
  intro t
  rw [(phiPoly_hasDerivAt t).deriv]
  exact phiPoly_deriv_pos t


theorem phiPoly_zero : phiPoly (0 : ℝ) = 0 := by norm_num [phiPoly]

theorem phiPoly_one : phiPoly (1 : ℝ) = 0.999999999 := by norm_num [phiPoly]

/-- For a non-negative `u` the argument `t = 1/(1 + p·u)` of the polynomial lies in `(0,1]`. -/
theorem phi_t_mem (u : ℝ) (hu : 0 ≤ u) :
    0 < 1.0 / (1.0 + 0.3275911 * u) ∧ 1.0 / (1.0 + 0.3275911 * u) ≤ 1 := by
  have h1 : (1:ℝ) ≤ 1.0 + 0.3275911 * u := by nlinarith
  have h0 : (0:ℝ) < 1.0 + 0.3275911 * u := by linarith
  constructor
  · positivity
  · rw [div_le_one h0]; norm_num; nlinarith

theorem phi_t_anti (u v : ℝ) (hu : 0 ≤ u) (huv : u ≤ v) :
    1.0 / (1.0 + 0.3275911 * v) ≤ 1.0 / (1.0 + 0.3275911 * u) := by
  have h0 : (0:ℝ) < 1.0 + 0.3275911 * u := by nlinarith
  apply div_le_div_of_nonneg_left (by norm_num) h0
  nlinarith

theorem phiTail_nonneg (x : ℝ) (hx : 0 ≤ x) : 0 ≤ phiTail Real.sqrt Real.exp x := by
  have hu : 0 ≤ x / Real.sqrt 2.0 := div_nonneg hx (Real.sqrt_nonneg _)
  have ht := phi_t_mem _ hu
  have hP : 0 ≤ phiPoly (1.0 / (1.0 + 0.3275911 * (x / Real.sqrt 2.0))) := by
    rw [← phiPoly_zero]
    exact phiPoly_strictMono.monotone (le_of_lt ht.1)
  exact mul_nonneg hP (Real.exp_pos _).le

theorem phiTail_le (x : ℝ) (hx : 0 ≤ x) : phiTail Real.sqrt Real.exp x ≤ 0.999999999 := by
  have hu : 0 ≤ x / Real.sqrt 2.0 := div_nonneg hx (Real.sqrt_nonneg _)
  have ht := phi_t_mem _ hu
  have hP0 : 0 ≤ phiPoly (1.0 / (1.0 + 0.3275911 * (x / Real.sqrt 2.0))) := by
    rw [← phiPoly_zero]
    exact phiPoly_strictMono.monotone (le_of_lt ht.1)
  have hP1 : phiPoly (1.0 / (1.0 + 0.3275911 * (x / Real.sqrt 2.0))) ≤ 0.999999999 := by
    rw [← phiPoly_one]
    exact phiPoly_strictMono.monotone ht.2
  have he : Real.exp (-(x / Real.sqrt 2.0) * (x / Real.sqrt 2.0)) ≤ 1 := by
    rw [Real.exp_le_one_iff]
    nlinarith [mul_nonneg hu hu]
  calc phiTail Real.sqrt Real.exp x
      ≤ phiPoly (1.0 / (1.0 + 0.3275911 * (x / Real.sqrt 2.0))) * 1 :=
        mul_le_mul_of_nonneg_left he hP0
    _ ≤ 0.999999999 := by rw [mul_one]; exact hP1

theorem phiTail_anti (x y : ℝ) (hx : 0 ≤ x) (hxy : x ≤ y) :
    phiTail Real.sqrt Real.exp y ≤ phiTail Real.sqrt Real.exp x := by
  have hs : 0 ≤ Real.sqrt 2.0 := Real.sqrt_nonneg _
  have hu : 0 ≤ x / Real.sqrt 2.0 := div_nonneg hx hs
  have huv : x / Real.sqrt 2.0 ≤ y / Real.sqrt 2.0 := div_le_div_of_nonneg_right hxy hs
  have hv : 0 ≤ y / Real.sqrt 2.0 := le_trans hu huv
  have hP : phiPoly (1.0 / (1.0 + 0.3275911 * (y / Real.sqrt 2.0)))
      ≤ phiPoly (1.0 / (1.0 + 0.3275911 * (x / Real.sqrt 2.0))) :=
    phiPoly_strictMono.monotone (phi_t_anti _ _ hu huv)
  have hPy : 0 ≤ phiPoly (1.0 / (1.0 + 0.3275911 * (y / Real.sqrt 2.0))) := by
    rw [← phiPoly_zero]
    exact phiPoly_strictMono.monotone (le_of_lt (phi_t_mem _ hv).1)
  have he : Real.exp (-(y / Real.sqrt 2.0) * (y / Real.sqrt 2.0))
      ≤ Real.exp (-(x / Real.sqrt 2.0) * (x / Real.sqrt 2.0)) := by
    rw [Real.exp_le_exp]
    nlinarith [mul_le_mul huv huv hu hv]
  exact mul_le_mul hP he (Real.exp_pos _).le (le_trans hPy hP)

theorem phi_mono_real (x y : ℝ) (hxy : x ≤ y) :
    phi Real.sqrt Real.exp x ≤ phi Real.sqrt Real.exp y := by
  rcases lt_or_le x 0 with hx | hx
  · rcases lt_or_le y 0 with hy | hy
    · rw [phi_of_neg _ _ x hx, phi_of_neg _ _ y hy]
      have := phiTail_anti (-y) (-x) (by linarith) (by linarith)
      linarith
    · rw [phi_of_neg _ _ x hx, phi_of_nonneg _ _ y hy]
      have h1 := phiTail_le (-x) (by linarith)
      have h2 := phiTail_le y hy
      norm_num at h1 h2
      linarith
  · have hy : 0 ≤ y := le_trans hx hxy
    rw [phi_of_nonneg _ _ x hx, phi_of_nonneg _ _ y hy]
    have := phiTail_anti x y hx hxy
    linarith

/-- C8. The program's `phi` is monotonically non-decreasing on the reals: `x ≤ y` implies
`phi(x) ≤ phi(y)`, on either side of the sign split at 0 and across it. -/
theorem phi_monotone (x y : ℝ) (hxy : x ≤ y) :
    phi Real.sqrt Real.exp x ≤ phi Real.sqrt Real.exp y :=
  phi_mono_real x y hxy

/-- Witness for C8: `x = -1`, `y = 2`, on opposite sides of the sign split. -/
theorem phi_monotone_witness :
    (-1 : ℝ) ≤ 2 ∧ phi Real.sqrt Real.exp (-1) ≤ phi Real.sqrt Real.exp 2 :=
  ⟨by norm_num, phi_monotone (-1) 2 (by norm_num)⟩

/-- The program's `phi` takes its values in `[0,1]`. -/
theorem phi_mem_unit (x : ℝ) :
    0 ≤ phi Real.sqrt Real.exp x ∧ phi Real.sqrt Real.exp x ≤ 1 := by
  rcases lt_or_le x 0 with hx | hx
  · rw [phi_of_neg _ _ x hx]
    have h1 := phiTail_le (-x) (by linarith)
    have h2 := phiTail_nonneg (-x) (by linarith)
    norm_num at h1
    constructor <;> linarith
  · rw [phi_of_nonneg _ _ x hx]
    have h1 := phiTail_le x hx
    have h2 := phiTail_nonneg x hx
    norm_num at h1
    constructor <;> linarith


/-! ## Tauchen: entries are probabilities -/

theorem sig_z_nonneg (rho sig_e : ℝ) : 0 ≤ sig_z Real.sqrt rho sig_e :=
  Real.sqrt_nonneg _

theorem sig_z_pos (rho sig_e : ℝ) (h1 : -1 < rho) (h2 : rho < 1) (hs : 0 < sig_e) :
    0 < sig_z Real.sqrt rho sig_e := by
  unfold sig_z
  apply Real.sqrt_pos.mpr
  have : 0 < 1 - rho ^ 2 := by nlinarith
  positivity

theorem tauchen_d_nonneg (N : Nat) (m rho sig_e : ℝ) (hN : 2 ≤ N) (hm : 0 < m) :
    0 ≤ tauchen_d Real.sqrt N m rho sig_e := by
  have hN1 : (0:ℝ) < (N : ℝ) - 1 := by
    have : (2 : ℝ) ≤ (N : ℝ) := by exact_mod_cast hN
    linarith
  unfold tauchen_d tauchen_z_min tauchen_z_max
  have := mul_nonneg hm.le (sig_z_nonneg rho sig_e)
  apply div_nonneg _ hN1.le
  linarith

theorem tauchen_d_pos (N : Nat) (m rho sig_e : ℝ) (hN : 2 ≤ N) (h1 : -1 < rho) (h2 : rho < 1)
    (hs : 0 < sig_e) (hm : 0 < m) :
    0 < tauchen_d Real.sqrt N m rho sig_e := by
  have hN1 : (0:ℝ) < (N : ℝ) - 1 := by
    have : (2 : ℝ) ≤ (N : ℝ) := by exact_mod_cast hN
    linarith
  unfold tauchen_d tauchen_z_min tauchen_z_max
  have := mul_pos hm (sig_z_pos rho sig_e h1 h2 hs)
  apply div_pos _ hN1
  linarith

/-- An entry computed by the loop body from a monotone `[0,1]`-valued CDF with a non-negative
increment and a positive `sig_e` is a probability. -/
theorem mPI_entry_mem_unit (F : ℝ → ℝ) (hF : ∀ x, 0 ≤ F x ∧ F x ≤ 1)
    (hmono : ∀ x y, x ≤ y → F x ≤ F y) (vZ : Nat → ℝ) (N : Nat) (d rho sig_e : ℝ)
    (hd : 0 ≤ d) (hs : 0 < sig_e) (i j : Nat) :
    0 ≤ mPI_entry F vZ N d rho sig_e i j ∧ mPI_entry F vZ N d rho sig_e i j ≤ 1 := by
  unfold mPI_entry
  split_ifs with h0 hl
  · exact hF _
  · have := hF ((vZ (N - 1) - d / 2 - rho * vZ i) / sig_e)
    constructor <;> linarith
  · have hle : (vZ j - d / 2 - rho * vZ i) / sig_e ≤ (vZ j + d / 2 - rho * vZ i) / sig_e := by
      apply div_le_div_of_nonneg_right _ hs.le
      linarith
    have h1 := hmono _ _ hle
    have h2 := hF ((vZ j - d / 2 - rho * vZ i) / sig_e)
    have h3 := hF ((vZ j + d / 2 - rho * vZ i) / sig_e)
    constructor <;> linarith

/-- C5. Tauchen entries are probabilities: for `N ≥ 2`, `rho` in `(-1,1)`, `sig_e > 0`,
`m > 0` and the program's own `phi`, every entry `mPI[i][j]` with `i, j < N` lies in `[0,1]`;
in particular the interior CDF differences `phi(upper) - phi(lower)` are non-negative. -/
theorem tauchen_entry_mem_unit (junk : Nat → ℝ) (N : Nat) (m rho sig_e : ℝ)
    (hN : 2 ≤ N) (_hrho1 : -1 < rho) (_hrho2 : rho < 1) (hs : 0 < sig_e) (hm : 0 < m)
    (i j : Nat) (_hi : i < N) (_hj : j < N) :
    0 ≤ tauchen_mPI Real.sqrt (phi Real.sqrt Real.exp) junk N m rho sig_e i j
      ∧ tauchen_mPI Real.sqrt (phi Real.sqrt Real.exp) junk N m rho sig_e i j ≤ 1
      ∧ (0 < j → j < N - 1 →
          phi Real.sqrt Real.exp ((tauchen_vZ Real.sqrt junk N m rho sig_e j
              - tauchen_d Real.sqrt N m rho sig_e / 2
              - rho * tauchen_vZ Real.sqrt junk N m rho sig_e i) / sig_e)
            ≤ phi Real.sqrt Real.exp ((tauchen_vZ Real.sqrt junk N m rho sig_e j
              + tauchen_d Real.sqrt N m rho sig_e / 2
              - rho * tauchen_vZ Real.sqrt junk N m rho sig_e i) / sig_e)) := by
  have hd := tauchen_d_nonneg N m rho sig_e hN hm
  have h := mPI_entry_mem_unit (phi Real.sqrt Real.exp) phi_mem_unit phi_mono_real
    (tauchen_vZ Real.sqrt junk N m rho sig_e) N (tauchen_d Real.sqrt N m rho sig_e) rho sig_e
    hd hs i j
  refine ⟨h.1, h.2, ?_⟩
  intro _ _
  apply phi_mono_real
  apply div_le_div_of_nonneg_right _ hs.le
  linarith

/-- Witness for C5: `N = 5`, `m = 3`, `rho = 0.95`, `sig_e = 0.007`, entry `(1,2)`. -/
theorem tauchen_entry_mem_unit_witness :
    2 ≤ 5 ∧ (-1 : ℝ) < 0.95 ∧ (0.95 : ℝ) < 1 ∧ (0 : ℝ) < 0.007 ∧ (0 : ℝ) < 3 ∧ 1 < 5 ∧ 2 < 5 ∧
    0 ≤ tauchen_mPI Real.sqrt (phi Real.sqrt Real.exp) (fun _ => 0) 5 (3 : ℝ) 0.95 0.007 1 2
      ∧ tauchen_mPI Real.sqrt (phi Real.sqrt Real.exp) (fun _ => 0) 5 (3 : ℝ) 0.95 0.007 1 2
        ≤ 1 :=
  have h := tauchen_entry_mem_unit (fun _ => 0) 5 3 0.95 0.007 (by norm_num) (by norm_num)
    (by norm_num) (by norm_num) (by norm_num) 1 2 (by norm_num) (by norm_num)
  ⟨by norm_num, by norm_num, by norm_num, by norm_num, by norm_num, by norm_num, by norm_num,
    h.1, h.2.1⟩

/-! ## Grids -/

theorem rouwenhorst_z_max_pos (N : Nat) (rho sig_e : ℝ) (hN : 2 ≤ N) (h1 : -1 < rho)
    (h2 : rho < 1) (hs : 0 < sig_e) : 0 < rouwenhorst_z_max Real.sqrt N rho sig_e := by
  have hN1 : (0:ℝ) < (N : ℝ) - 1 := by
    have : (2 : ℝ) ≤ (N : ℝ) := by exact_mod_cast hN
    linarith
  unfold rouwenhorst_z_max
  exact mul_pos (sig_z_pos rho sig_e h1 h2 hs) (Real.sqrt_pos.mpr hN1)

/-- A grid `a + i*d` with `d > 0` is strictly increasing. -/
theorem affine_grid_lt (a d : ℝ) (hd : 0 < d) (i j : Nat) (hij : i < j) :
    a + (i : ℝ) * d < a + (j : ℝ) * d := by
  have : (i : ℝ) < (j : ℝ) := by exact_mod_cast hij
  nlinarith

/-- C9. Grid invariant: for `N ≥ 2`, `rho` in `(-1,1)`, `sig_e > 0` (and `m > 0` for Tauchen)
the grid `vZ` of each discretizer is strictly increasing and symmetric about 0,
`vZ[i] = -vZ[N-1-i]` for every `i < N`. -/
theorem grid_invariant (junk : Nat → ℝ) (N : Nat) (m rho sig_e : ℝ)
    (hN : 2 ≤ N) (hrho1 : -1 < rho) (hrho2 : rho < 1) (hs : 0 < sig_e) (hm : 0 < m) :
    (∀ i j, i < j → j < N →
        tauchen_vZ Real.sqrt junk N m rho sig_e i < tauchen_vZ Real.sqrt junk N m rho sig_e j)
      ∧ (∀ i, i < N →
        tauchen_vZ Real.sqrt junk N m rho sig_e i
          = - tauchen_vZ Real.sqrt junk N m rho sig_e (N - 1 - i))
      ∧ (∀ i j, i < j → j < N →
        rouwenhorst_vZ Real.sqrt N rho sig_e i < rouwenhorst_vZ Real.sqrt N rho sig_e j)
      ∧ (∀ i, i < N →
        rouwenhorst_vZ Real.sqrt N rho sig_e i
          = - rouwenhorst_vZ Real.sqrt N rho sig_e (N - 1 - i)) := by
  have hN1 : (0:ℝ) < (N : ℝ) - 1 := by
    have : (2 : ℝ) ≤ (N : ℝ) := by exact_mod_cast hN
    linarith
  have hcast : ∀ i, i < N → ((N - 1 - i : Nat) : ℝ) = (N : ℝ) - 1 - (i : ℝ) := by
    intro i hi
    rw [Nat.cast_sub (by omega), Nat.cast_sub (by omega)]
    simp
  refine ⟨?_, ?_, ?_, ?_⟩
  · intro i j hij hj
    rw [tauchen_vZ_apply _ _ _ _ _ _ hN i (by omega), tauchen_vZ_apply _ _ _ _ _ _ hN j hj]
    exact affine_grid_lt _ _ (tauchen_d_pos N m rho sig_e hN hrho1 hrho2 hs hm) i j hij
  · intro i hi
    rw [tauchen_vZ_apply _ _ _ _ _ _ hN i hi,
      tauchen_vZ_apply _ _ _ _ _ _ hN (N - 1 - i) (by omega), hcast i hi]
    unfold tauchen_d tauchen_z_min
    field_simp
    ring
  · intro i j hij _
    unfold rouwenhorst_vZ linspace
    apply affine_grid_lt _ _ _ i j hij
    have := rouwenhorst_z_max_pos N rho sig_e hN hrho1 hrho2 hs
    unfold rouwenhorst_z_min
    apply div_pos _ hN1
    linarith
  · intro i hi
    unfold rouwenhorst_vZ linspace
    rw [hcast i hi]
    unfold rouwenhorst_z_min
    field_simp
    ring


/-- Witness for C9: `N = 5`, `m = 3`, `rho = 0.95`, `sig_e = 0.007`; the Tauchen grid at the
indices 1 and 3. -/
theorem grid_invariant_witness :
    2 ≤ 5 ∧ (-1 : ℝ) < 0.95 ∧ (0.95 : ℝ) < 1 ∧ (0 : ℝ) < 0.007 ∧ (0 : ℝ) < 3 ∧
    tauchen_vZ Real.sqrt (fun _ => 0) 5 (3 : ℝ) 0.95 0.007 1
        < tauchen_vZ Real.sqrt (fun _ => 0) 5 (3 : ℝ) 0.95 0.007 3
      ∧ rouwenhorst_vZ Real.sqrt 5 (0.95 : ℝ) 0.007 1
        = - rouwenhorst_vZ Real.sqrt 5 (0.95 : ℝ) 0.007 (5 - 1 - 1) :=
  have h := grid_invariant (fun _ => 0) 5 3 0.95 0.007 (by norm_num) (by norm_num)
    (by norm_num) (by norm_num) (by norm_num)
  ⟨by norm_num, by norm_num, by norm_num, by norm_num, by norm_num,
    h.1 1 3 (by norm_num) (by norm_num), h.2.2.2 1 (by norm_num)⟩

/-! ## Rouwenhorst: the loop in closed form -/

theorem rouwenhorst_body_eq (p q : K) (n : Nat) (e : Nat → Nat → K) (J : Mat K) :
    rouwenhorst_body p q (n + 3) ⟨⟨n + 2, n + 2, e⟩, J⟩
      = some ⟨⟨n + 3, n + 3, stepElem p q (n + 3) e⟩, ⟨n + 3, n + 3, stepElem p q (n + 3) e⟩⟩ := by
  have a1 : n + 3 - 2 = n + 1 := by omega
  have a2 : n + 3 - 1 = n + 2 := by omega
  simp only [rouwenhorst_body, Mat.setSubmat, Mat.getSubmat, Mat.zeros, Mat.smul, Mat.add, a1, a2]
  simp only [bind, Option.bind]
  simp
  funext r c
  simp only [stepElem, combElem, a1, a2]
  by_cases h : 1 ≤ r ∧ r ≤ n + 1 ∧ c ≤ n + 2
  · have hr : 1 + (r - 1) = r := by omega
    have h2 : r ≤ n + 2 := by omega
    simp only [h, hr, h2, and_self, true_and, if_true]
  · simp only [h, if_false]

theorem rouwenhorst_loop_eq (p q : K) (J : Mat K) (n : Nat) :
    rouwenhorst_loop p q ⟨mPI_base p q, J⟩ n
      = some ⟨⟨n + 2, n + 2, rouwElem p q n⟩,
          if n = 0 then J else ⟨n + 2, n + 2, rouwElem p q n⟩⟩ := by
  induction n with
  | zero => rfl
  | succ n ih =>
    simp only [rouwenhorst_loop, ih, Option.some_bind]
    rw [rouwenhorst_body_eq]
    simp [rouwElem]


/-! ### Row sums -/

theorem sum_embed_left (f : Nat → K) (n : Nat) :
    ∑ c in range (n + 3), (if c ≤ n + 1 then f c else 0) = ∑ c in range (n + 2), f c := by
  rw [Finset.sum_range_succ]
  have h : ¬ n + 2 ≤ n + 1 := by omega
  simp only [h, if_false, add_zero]
  apply Finset.sum_congr rfl
  intro c hc
  have : c ≤ n + 1 := by have := Finset.mem_range.mp hc; omega
  simp [this]

theorem sum_embed_right (f : Nat → K) (n : Nat) :
    ∑ c in range (n + 3), (if 1 ≤ c ∧ c ≤ n + 2 then f (c - 1) else 0)
      = ∑ c in range (n + 2), f c := by
  rw [Finset.sum_range_succ']
  simp only [Nat.le_zero_eq, one_ne_zero, false_and, if_false, add_zero]
  apply Finset.sum_congr rfl
  intro c hc
  have : 1 ≤ c + 1 ∧ c + 1 ≤ n + 2 := by have := Finset.mem_range.mp hc; omega
  simp [this]

theorem sum_embed_left_if (P : Prop) [Decidable P] (a : K) (f : Nat → K) (n : Nat) :
    ∑ c in range (n + 3), (if P ∧ c ≤ n + 1 then a * f c else 0)
      = if P then a * ∑ c in range (n + 2), f c else 0 := by
  by_cases h : P
  · simp only [h, true_and, if_true]
    rw [sum_embed_left (fun c => a * f c) n, Finset.mul_sum]
  · simp [h]

theorem sum_embed_right_if (P : Prop) [Decidable P] (a : K) (f : Nat → K) (n : Nat) :
    ∑ c in range (n + 3), (if (P ∧ 1 ≤ c) ∧ c ≤ n + 2 then a * f (c - 1) else 0)
      = if P then a * ∑ c in range (n + 2), f c else 0 := by
  by_cases h : P
  · simp only [h, true_and, if_true]
    rw [sum_embed_right (fun c => a * f c) n, Finset.mul_sum]
  · simp [h]

/-- Row sums of the weighted combination before halving. -/
theorem combElem_row_sum (p q : K) (n : Nat) (e : Nat → Nat → K) (r : Nat) :
    ∑ c in range (n + 3), combElem p q (n + 3) e r c
      = (if r ≤ n + 1 then ∑ c in range (n + 2), e r c else 0)
        + (if 1 ≤ r ∧ r ≤ n + 2 then ∑ c in range (n + 2), e (r - 1) c else 0) := by
  have a1 : n + 3 - 2 = n + 1 := by omega
  have a2 : n + 3 - 1 = n + 2 := by omega
  simp only [combElem, a1, a2, Finset.sum_add_distrib, ← and_assoc]
  rw [sum_embed_left_if (r ≤ n + 1) p (e r) n, sum_embed_right_if (r ≤ n + 1) (1 - p) (e r) n,
    sum_embed_left_if (1 ≤ r ∧ r ≤ n + 2) (1 - q) (e (r - 1)) n,
    sum_embed_right_if (1 ≤ r ∧ r ≤ n + 2) q (e (r - 1)) n]
  by_cases h1 : r ≤ n + 1 <;> by_cases h2 : 1 ≤ r ∧ r ≤ n + 2 <;>
    simp only [h1, h2, and_self, if_true, if_false] <;> ring

/-- One iteration of the loop maps a matrix whose rows sum to one to a matrix whose rows sum
to one. -/
theorem stepElem_row_sum (p q : K) (n : Nat) (e : Nat → Nat → K)
    (hrow : ∀ r, r < n + 2 → ∑ c in range (n + 2), e r c = 1) (r : Nat) (hr : r < n + 3) :
    ∑ c in range (n + 3), stepElem p q (n + 3) e r c = 1 := by
  have a1 : n + 3 - 2 = n + 1 := by omega
  have a2 : n + 3 - 1 = n + 2 := by omega
  by_cases h : 1 ≤ r ∧ r ≤ n + 1
  · have hs : ∑ c in range (n + 3), stepElem p q (n + 3) e r c
        = ∑ c in range (n + 3), 0.5 * combElem p q (n + 3) e r c := by
      apply Finset.sum_congr rfl
      intro c hc
      have hc' : c ≤ n + 2 := by have := Finset.mem_range.mp hc; omega
      simp only [stepElem, a1, a2, h, hc', and_self, if_true]
    have h2 : 1 ≤ r ∧ r ≤ n + 2 := ⟨h.1, by omega⟩
    rw [hs, ← Finset.mul_sum, combElem_row_sum]
    simp only [h.2, h2, and_self, if_true]
    rw [hrow r (by omega), hrow (r - 1) (by omega)]
    norm_num
  · have hs : ∑ c in range (n + 3), stepElem p q (n + 3) e r c
        = ∑ c in range (n + 3), combElem p q (n + 3) e r c := by
      apply Finset.sum_congr rfl
      intro c _
      have h' : ¬ (1 ≤ r ∧ r ≤ n + 1 ∧ c ≤ n + 2) := fun hh => h ⟨hh.1, hh.2.1⟩
      simp only [stepElem, a1, a2, h', if_false]
    rw [hs, combElem_row_sum]
    by_cases h0 : r = 0
    · subst h0
      simp [hrow 0 (by omega)]
    · have hr2 : r = n + 2 := by omega
      subst hr2
      simp [hrow (n + 1) (by omega)]

theorem rouwElem_row_sum (p q : K) (n : Nat) (r : Nat) (hr : r < n + 2) :
    ∑ c in range (n + 2), rouwElem p q n r c = 1 := by
  induction n generalizing r with
  | zero =>
    have : r = 0 ∨ r = 1 := by omega
    rcases this with h | h <;> subst h <;> simp [rouwElem, mPI_base, Finset.sum_range_succ]
  | succ n ih =>
    exact stepElem_row_sum p q n (rouwElem p q n) ih r hr


/-! ### Entries are probabilities -/

theorem combElem_nonneg (p q : K) (hp0 : 0 ≤ p) (hp1 : p ≤ 1) (hq0 : 0 ≤ q) (hq1 : q ≤ 1)
    (i : Nat) (e : Nat → Nat → K) (he : ∀ r c, 0 ≤ e r c) (r c : Nat) :
    0 ≤ combElem p q i e r c := by
  have h1p : 0 ≤ 1 - p := by linarith
  have h1q : 0 ≤ 1 - q := by linarith
  unfold combElem
  have t1 : 0 ≤ (if r ≤ i - 2 ∧ c ≤ i - 2 then p * e r c else 0) := by
    split_ifs
    · exact mul_nonneg hp0 (he _ _)
    · exact le_refl _
  have t2 : 0 ≤ (if r ≤ i - 2 ∧ 1 ≤ c ∧ c ≤ i - 1 then (1 - p) * e r (c - 1) else 0) := by
    split_ifs
    · exact mul_nonneg h1p (he _ _)
    · exact le_refl _
  have t3 : 0 ≤ (if 1 ≤ r ∧ r ≤ i - 1 ∧ c ≤ i - 2 then (1 - q) * e (r - 1) c else 0) := by
    split_ifs
    · exact mul_nonneg h1q (he _ _)
    · exact le_refl _
  have t4 : 0 ≤ (if 1 ≤ r ∧ r ≤ i - 1 ∧ 1 ≤ c ∧ c ≤ i - 1 then q * e (r - 1) (c - 1) else 0) := by
    split_ifs
    · exact mul_nonneg hq0 (he _ _)
    · exact le_refl _
  linarith

theorem stepElem_nonneg (p q : K) (hp0 : 0 ≤ p) (hp1 : p ≤ 1) (hq0 : 0 ≤ q) (hq1 : q ≤ 1)
    (i : Nat) (e : Nat → Nat → K) (he : ∀ r c, 0 ≤ e r c) (r c : Nat) :
    0 ≤ stepElem p q i e r c := by
  have h := combElem_nonneg p q hp0 hp1 hq0 hq1 i e he r c
  unfold stepElem
  split_ifs
  · exact mul_nonneg (by norm_num) h
  · exact h

theorem rouwElem_nonneg (p q : K) (hp0 : 0 ≤ p) (hp1 : p ≤ 1) (hq0 : 0 ≤ q) (hq1 : q ≤ 1)
    (n r c : Nat) : 0 ≤ rouwElem p q n r c := by
  induction n generalizing r c with
  | zero =>
    simp only [rouwElem, mPI_base]
    split_ifs <;> linarith
  | succ n ih =>
    exact stepElem_nonneg p q hp0 hp1 hq0 hq1 (n + 3) (rouwElem p q n) ih r c

theorem rouwElem_le_one (p q : K) (hp0 : 0 ≤ p) (hp1 : p ≤ 1) (hq0 : 0 ≤ q) (hq1 : q ≤ 1)
    (n r c : Nat) (hr : r < n + 2) (hc : c < n + 2) : rouwElem p q n r c ≤ 1 := by
  rw [← rouwElem_row_sum p q n r hr]
  exact Finset.single_le_sum (f := fun c => rouwElem p q n r c)
    (fun c _ => rouwElem_nonneg p q hp0 hp1 hq0 hq1 n r c) (Finset.mem_range.mpr hc)

/-- The matrix left in `mPI_old` by the program for `N ≥ 2`. -/
theorem rouwenhorst_mPI_old_eq (junk : Nat → Nat → K) (N : Nat) (p q : K) (hN : 2 ≤ N) :
    rouwenhorst_mPI_old junk N p q = some ⟨N, N, rouwElem p q (N - 2)⟩ := by
  obtain ⟨n, rfl⟩ : ∃ n, N = n + 2 := ⟨N - 2, by omega⟩
  simp [rouwenhorst_mPI_old, rouwenhorst_run, rouwenhorst_loop_eq]

theorem rouwenhorst_body_step (p q : K) (i : Nat) (s : RState K) (hi : 3 ≤ i)
    (hr : s.mPI_old.n_rows = i - 1) (hc : s.mPI_old.n_cols = i - 1) :
    rouwenhorst_body p q i s
      = some ⟨⟨i, i, stepElem p q i s.mPI_old.elem⟩, ⟨i, i, stepElem p q i s.mPI_old.elem⟩⟩ := by
  obtain ⟨n, rfl⟩ : ∃ n, i = n + 3 := ⟨i - 3, by omega⟩
  obtain ⟨⟨rows, cols, e⟩, J⟩ := s
  simp only [Nat.add_sub_cancel] at hr hc
  have hr' : rows = n + 2 := by simpa using hr
  have hc' : cols = n + 2 := by simpa using hc
  subst hr' hc'
  exact rouwenhorst_body_eq p q n e J

/-- C2. Rouwenhorst row-stochasticity: for every `N ≥ 2` and all `p`, `q`, the program runs
through, the matrix built by the recursion (`mPI_old` after the loop: the 2×2 base for `N = 2`,
the matrix left by the iterations `3..N` otherwise) is `N × N` and each of its rows sums to
exactly 1; and one iteration of the loop body maps a `(k-1) × (k-1)` matrix whose rows all sum
to 1 to a `k × k` matrix whose rows all sum to 1. -/
theorem rouwenhorst_row_sum_eq_one (junk : Nat → Nat → K) (N : Nat) (p q : K) (hN : 2 ≤ N) :
    (∃ M, rouwenhorst_mPI_old junk N p q = some M ∧ M.n_rows = N ∧ M.n_cols = N
        ∧ ∀ r, r < N → ∑ c in range N, M.elem r c = 1)
      ∧ (∀ (k : Nat) (s : RState K), 3 ≤ k → k ≤ N →
          s.mPI_old.n_rows = k - 1 → s.mPI_old.n_cols = k - 1 →
          (∀ r, r < k - 1 → ∑ c in range (k - 1), s.mPI_old.elem r c = 1) →
          ∃ M, rouwenhorst_body p q k s = some ⟨M, M⟩ ∧ M.n_rows = k ∧ M.n_cols = k
            ∧ ∀ r, r < k → ∑ c in range k, M.elem r c = 1) := by
  constructor
  · refine ⟨_, rouwenhorst_mPI_old_eq junk N p q hN, rfl, rfl, ?_⟩
    obtain ⟨n, rfl⟩ : ∃ n, N = n + 2 := ⟨N - 2, by omega⟩
    intro r hr
    exact rouwElem_row_sum p q n r hr
  · intro k s hk _ hr hc hrow
    refine ⟨_, rouwenhorst_body_step p q k s hk hr hc, rfl, rfl, ?_⟩
    obtain ⟨n, rfl⟩ : ∃ n, k = n + 3 := ⟨k - 3, by omega⟩
    intro r hr'
    exact stepElem_row_sum p q n s.mPI_old.elem hrow r hr'

/-- Witness for C2: `N = 5`, `p = q = 0.975`, over the rationals. -/
theorem rouwenhorst_row_sum_eq_one_witness :
    2 ≤ 5 ∧
    ∃ M, rouwenhorst_mPI_old (fun _ _ => (0 : ℚ)) 5 0.975 0.975 = some M ∧ M.n_rows = 5
      ∧ M.n_cols = 5 ∧ ∀ r, r < 5 → ∑ c in range 5, M.elem r c = 1 :=
  ⟨by norm_num, (rouwenhorst_row_sum_eq_one (fun _ _ => (0 : ℚ)) 5 0.975 0.975 (by norm_num)).1⟩

/-- C4. Rouwenhorst entries are probabilities: for every `N ≥ 2` and every `rho` in `(-1,1)`
(so that `p = q = (1+rho)/2` lies in `(0,1)`), every entry of the matrix built by the recursion
lies in `[0,1]`. -/
theorem rouwenhorst_entries_mem_unit (junk : Nat → Nat → ℝ) (N : Nat) (rho : ℝ) (hN : 2 ≤ N)
    (h1 : -1 < rho) (h2 : rho < 1) :
    0 < rouwenhorst_p rho ∧ rouwenhorst_p rho < 1 ∧
    ∃ M, rouwenhorst_mPI_old junk N (rouwenhorst_p rho) (rouwenhorst_p rho) = some M
      ∧ ∀ r c, r < N → c < N → 0 ≤ M.elem r c ∧ M.elem r c ≤ 1 := by
  have hp0 : 0 < rouwenhorst_p rho := by unfold rouwenhorst_p; linarith
  have hp1 : rouwenhorst_p rho < 1 := by unfold rouwenhorst_p; linarith
  refine ⟨hp0, hp1, _, rouwenhorst_mPI_old_eq junk N _ _ hN, ?_⟩
  obtain ⟨n, rfl⟩ : ∃ n, N = n + 2 := ⟨N - 2, by omega⟩
  intro r c hr hc
  exact ⟨rouwElem_nonneg _ _ hp0.le hp1.le hp0.le hp1.le n r c,
    rouwElem_le_one _ _ hp0.le hp1.le hp0.le hp1.le n r c hr hc⟩

/-- Witness for C4: `N = 5`, `rho = 0.95`. -/
theorem rouwenhorst_entries_mem_unit_witness :
    2 ≤ 5 ∧ (-1 : ℝ) < 0.95 ∧ (0.95 : ℝ) < 1 ∧
    ∃ M, rouwenhorst_mPI_old (fun _ _ => (0 : ℝ)) 5 (rouwenhorst_p 0.95) (rouwenhorst_p 0.95)
        = some M
      ∧ ∀ r c, r < 5 → c < 5 → 0 ≤ M.elem r c ∧ M.elem r c ≤ 1 :=
  ⟨by norm_num, by norm_num, by norm_num,
    (rouwenhorst_entries_mem_unit (fun _ _ => (0 : ℝ)) 5 0.95 (by norm_num) (by norm_num)
      (by norm_num)).2.2⟩

/-- C3 (the code at `N = 2`). The loop `for (i=3; i<N+1; i++)` does not run, so the matrix
`mPI_new` that the output section reads is still the 3×3 matrix declared on line 58, whose
elements `junk` the program never sets; it does not depend on `rho`, so it is not the base
matrix for every `rho`.  The base matrix `[[p,1-p],[1-q,q]]` sits in `mPI_old`, which the
output section does not read. -/
theorem rouwenhorst_output_N2 (junk : Nat → Nat → K) :
    (∀ rho : K, rouwenhorst_output junk 2 rho = some ⟨3, 3, junk⟩)
      ∧ (∀ rho : K, rouwenhorst_mPI_old junk 2 (rouwenhorst_p rho) (rouwenhorst_p rho)
          = some (mPI_base (rouwenhorst_p rho) (rouwenhorst_p rho)))
      ∧ ¬ (∀ rho : K, ∃ M, rouwenhorst_output junk 2 rho = some M
            ∧ M.elem 0 0 = (mPI_base (rouwenhorst_p rho) (rouwenhorst_p rho)).elem 0 0) := by
  refine ⟨fun _ => rfl, fun _ => rfl, ?_⟩
  intro h
  obtain ⟨M0, hM0, h0⟩ := h 0
  obtain ⟨M1, hM1, h1⟩ := h 1
  have e0 : M0 = ⟨3, 3, junk⟩ := (Option.some.inj hM0).symm
  have e1 : M1 = ⟨3, 3, junk⟩ := (Option.some.inj hM1).symm
  subst e0 e1
  simp only [mPI_base, rouwenhorst_p, if_true] at h0 h1
  rw [h0] at h1
  norm_num at h1


/-! ## Rouwenhorst: moments, first row, symmetry -/

/-! ### Weighted row sums (moments) -/

theorem sum_embed_left_w (w f : Nat → K) (n : Nat) :
    ∑ c in range (n + 3), w c * (if c ≤ n + 1 then f c else 0)
      = ∑ c in range (n + 2), w c * f c := by
  rw [Finset.sum_range_succ]
  have h : ¬ n + 2 ≤ n + 1 := by omega
  simp only [h, if_false, mul_zero, add_zero]
  apply Finset.sum_congr rfl
  intro c hc
  have : c ≤ n + 1 := by have := Finset.mem_range.mp hc; omega
  simp [this]

theorem sum_embed_right_w (w f : Nat → K) (n : Nat) :
    ∑ c in range (n + 3), w c * (if 1 ≤ c ∧ c ≤ n + 2 then f (c - 1) else 0)
      = ∑ c in range (n + 2), w (c + 1) * f c := by
  rw [Finset.sum_range_succ']
  simp only [Nat.le_zero_eq, one_ne_zero, false_and, if_false, mul_zero, add_zero]
  apply Finset.sum_congr rfl
  intro c hc
  have : 1 ≤ c + 1 ∧ c + 1 ≤ n + 2 := by have := Finset.mem_range.mp hc; omega
  simp [this]

/-- The weighted row sum of the combination of line 78, in terms of the weighted row sums of
the old matrix (`w` on the left embeddings, `w` shifted by one column on the right ones). -/
theorem combElem_weighted_sum (w : Nat → K) (p q : K) (n : Nat) (e : Nat → Nat → K) (r : Nat) :
    ∑ c in range (n + 3), w c * combElem p q (n + 3) e r c
      = (if r ≤ n + 1 then p * ∑ c in range (n + 2), w c * e r c
            + (1 - p) * ∑ c in range (n + 2), w (c + 1) * e r c else 0)
        + (if 1 ≤ r ∧ r ≤ n + 2 then (1 - q) * ∑ c in range (n + 2), w c * e (r - 1) c
            + q * ∑ c in range (n + 2), w (c + 1) * e (r - 1) c else 0) := by
  have a1 : n + 3 - 2 = n + 1 := by omega
  have a2 : n + 3 - 1 = n + 2 := by omega
  have key : ∀ c, w c * combElem p q (n + 3) e r c
      = (if r ≤ n + 1 then p * (w c * (if c ≤ n + 1 then e r c else 0))
            + (1 - p) * (w c * (if 1 ≤ c ∧ c ≤ n + 2 then e r (c - 1) else 0)) else 0)
        + (if 1 ≤ r ∧ r ≤ n + 2 then
            (1 - q) * (w c * (if c ≤ n + 1 then e (r - 1) c else 0))
            + q * (w c * (if 1 ≤ c ∧ c ≤ n + 2 then e (r - 1) (c - 1) else 0)) else 0) := by
    intro c
    simp only [combElem, a1, a2, ← and_assoc]
    by_cases h1 : r ≤ n + 1 <;> by_cases h2 : 1 ≤ r ∧ r ≤ n + 2 <;>
      by_cases h3 : c ≤ n + 1 <;> by_cases h4 : 1 ≤ c ∧ c ≤ n + 2 <;>
      simp only [h1, h2, h3, h4, and_self, and_true, true_and, and_false, false_and, if_true,
        if_false, mul_zero, add_zero, zero_add] <;> ring
  simp only [key]
  rw [Finset.sum_add_distrib]
  by_cases h1 : r ≤ n + 1 <;> by_cases h2 : 1 ≤ r ∧ r ≤ n + 2 <;>
    simp only [h1, h2, and_self, if_true, if_false, Finset.sum_add_distrib, ← Finset.mul_sum,
      sum_embed_left_w, sum_embed_right_w, Finset.sum_const_zero]


/-- The weighted row sum of the matrix left by one iteration: rows `0` and `n+2` take the
combination as it is, the rows in between take half of it. -/
theorem stepElem_weighted_sum (w : Nat → K) (p q : K) (n : Nat) (e : Nat → Nat → K) (r : Nat) :
    ∑ c in range (n + 3), w c * stepElem p q (n + 3) e r c
      = (if 1 ≤ r ∧ r ≤ n + 1 then 0.5 else 1)
        * ∑ c in range (n + 3), w c * combElem p q (n + 3) e r c := by
  have a1 : n + 3 - 2 = n + 1 := by omega
  have a2 : n + 3 - 1 = n + 2 := by omega
  rw [Finset.mul_sum]
  apply Finset.sum_congr rfl
  intro c hc
  have hc' : c ≤ n + 2 := by have := Finset.mem_range.mp hc; omega
  by_cases h : 1 ≤ r ∧ r ≤ n + 1
  · simp only [stepElem, a1, a2, h, hc', and_self, if_true]
    ring
  · have h' : ¬ (1 ≤ r ∧ r ≤ n + 1 ∧ c ≤ n + 2) := fun hh => h ⟨hh.1, hh.2.1⟩
    simp only [stepElem, a1, a2, h, h', if_false, one_mul]

/-- First moment of the column index along a row of the matrix built by the recursion:
`(n+1)(1-p) + r(p+q-1)` after `n` iterations. -/
theorem rouwElem_mean (p q : K) (n : Nat) (r : Nat) (hr : r < n + 2) :
    ∑ c in range (n + 2), (c : K) * rouwElem p q n r c
      = ((n : K) + 1) * (1 - p) + (r : K) * (p + q - 1) := by
  induction n generalizing r with
  | zero =>
    have : r = 0 ∨ r = 1 := by omega
    rcases this with h | h <;> subst h <;> simp [rouwElem, mPI_base, Finset.sum_range_succ]
  | succ n ih =>
    have hshift : ∀ r', r' < n + 2 →
        ∑ c in range (n + 2), (((c + 1 : Nat) : K)) * rouwElem p q n r' c
          = ((n : K) + 1) * (1 - p) + (r' : K) * (p + q - 1) + 1 := by
      intro r' hr'
      have : ∀ c, (((c + 1 : Nat) : K)) * rouwElem p q n r' c
          = (c : K) * rouwElem p q n r' c + rouwElem p q n r' c := by
        intro c; push_cast; ring
      simp only [this, Finset.sum_add_distrib, ih r' hr', rouwElem_row_sum p q n r' hr']
    show ∑ c in range (n + 3), (c : K) * stepElem p q (n + 3) (rouwElem p q n) r c = _
    rw [stepElem_weighted_sum (fun c => (c : K)), combElem_weighted_sum (fun c => (c : K))]
    by_cases h0 : r = 0
    · subst h0
      simp only [Nat.zero_le, if_true, Nat.le_zero_eq, one_ne_zero, false_and, if_false,
        add_zero, one_mul, ih 0 (by omega), hshift 0 (by omega)]
      push_cast
      ring
    · by_cases hl : r = n + 2
      · subst hl
        have e1 : ¬ n + 2 ≤ n + 1 := by omega
        have e2 : 1 ≤ n + 2 ∧ n + 2 ≤ n + 2 := by omega
        have e3 : n + 2 - 1 = n + 1 := by omega
        simp only [e1, e2, e3, and_false, and_self, if_true, if_false, zero_add, one_mul,
          ih (n + 1) (by omega), hshift (n + 1) (by omega)]
        push_cast
        ring
      · have e1 : 1 ≤ r ∧ r ≤ n + 1 := by omega
        have e2 : 1 ≤ r ∧ r ≤ n + 2 := by omega
        have e3 : ((r - 1 : Nat) : K) = (r : K) - 1 := by
          rw [Nat.cast_sub (by omega)]; simp
        simp only [e1, e2, e1.2, and_self, if_true, ih r (by omega), hshift r (by omega),
          ih (r - 1) (by omega), hshift (r - 1) (by omega), e3]
        push_cast
        ring


/-- Second moment of the column index along a row of the matrix built by the recursion:
the variance `(n+1-r) p(1-p) + r q(1-q)` plus the square of the mean. -/
theorem rouwElem_second_moment (p q : K) (n : Nat) (r : Nat) (hr : r < n + 2) :
    ∑ c in range (n + 2), (c : K) ^ 2 * rouwElem p q n r c
      = ((n : K) + 1 - (r : K)) * (p * (1 - p)) + (r : K) * (q * (1 - q))
        + (((n : K) + 1) * (1 - p) + (r : K) * (p + q - 1)) ^ 2 := by
  induction n generalizing r with
  | zero =>
    have : r = 0 ∨ r = 1 := by omega
    rcases this with h | h <;> subst h <;> simp [rouwElem, mPI_base, Finset.sum_range_succ] <;>
      ring
  | succ n ih =>
    have hshift : ∀ r', r' < n + 2 →
        ∑ c in range (n + 2), (((c + 1 : Nat) : K)) ^ 2 * rouwElem p q n r' c
          = (((n : K) + 1 - (r' : K)) * (p * (1 - p)) + (r' : K) * (q * (1 - q))
              + (((n : K) + 1) * (1 - p) + (r' : K) * (p + q - 1)) ^ 2)
            + 2 * (((n : K) + 1) * (1 - p) + (r' : K) * (p + q - 1)) + 1 := by
      intro r' hr'
      have : ∀ c, (((c + 1 : Nat) : K)) ^ 2 * rouwElem p q n r' c
          = (c : K) ^ 2 * rouwElem p q n r' c + 2 * ((c : K) * rouwElem p q n r' c)
            + rouwElem p q n r' c := by
        intro c; push_cast; ring
      simp only [this, Finset.sum_add_distrib, ← Finset.mul_sum, ih r' hr',
        rouwElem_mean p q n r' hr', rouwElem_row_sum p q n r' hr']
    show ∑ c in range (n + 3), (c : K) ^ 2 * stepElem p q (n + 3) (rouwElem p q n) r c = _
    rw [stepElem_weighted_sum (fun c => (c : K) ^ 2),
      combElem_weighted_sum (fun c => (c : K) ^ 2)]
    by_cases h0 : r = 0
    · subst h0
      simp only [Nat.zero_le, if_true, Nat.le_zero_eq, one_ne_zero, false_and, if_false,
        add_zero, one_mul, ih 0 (by omega), hshift 0 (by omega)]
      push_cast
      ring
    · by_cases hl : r = n + 2
      · subst hl
        have e1 : ¬ n + 2 ≤ n + 1 := by omega
        have e2 : 1 ≤ n + 2 ∧ n + 2 ≤ n + 2 := by omega
        have e3 : n + 2 - 1 = n + 1 := by omega
        simp only [e1, e2, e3, and_false, and_self, if_true, if_false, zero_add, one_mul,
          ih (n + 1) (by omega), hshift (n + 1) (by omega)]
        push_cast
        ring
      · have e1 : 1 ≤ r ∧ r ≤ n + 1 := by omega
        have e2 : 1 ≤ r ∧ r ≤ n + 2 := by omega
        have e3 : ((r - 1 : Nat) : K) = (r : K) - 1 := by
          rw [Nat.cast_sub (by omega)]; simp
        simp only [e1, e2, e1.2, and_self, if_true, ih r (by omega), hshift r (by omega),
          ih (r - 1) (by omega), hshift (r - 1) (by omega), e3]
        push_cast
        ring


/-- Conditional mean of an affine grid `a + j*δ` under row `r` of the matrix built by the
recursion. -/
theorem rouwElem_affine_mean (p q a δ : K) (n r : Nat) (hr : r < n + 2) :
    ∑ c in range (n + 2), rouwElem p q n r c * (a + (c : K) * δ)
      = a + δ * (((n : K) + 1) * (1 - p) + (r : K) * (p + q - 1)) := by
  have : ∀ c, rouwElem p q n r c * (a + (c : K) * δ)
      = a * rouwElem p q n r c + δ * ((c : K) * rouwElem p q n r c) := by
    intro c; ring
  simp only [this, Finset.sum_add_distrib, ← Finset.mul_sum, rouwElem_mean p q n r hr,
    rouwElem_row_sum p q n r hr]
  ring

/-- Second moment about `b` of an affine grid `a + j*δ` under row `r` of the matrix built by
the recursion. -/
theorem rouwElem_affine_sq (p q a δ b : K) (n r : Nat) (hr : r < n + 2) :
    ∑ c in range (n + 2), rouwElem p q n r c * (a + (c : K) * δ - b) ^ 2
      = (a - b + δ * (((n : K) + 1) * (1 - p) + (r : K) * (p + q - 1))) ^ 2
        + δ ^ 2 * (((n : K) + 1 - (r : K)) * (p * (1 - p)) + (r : K) * (q * (1 - q))) := by
  have : ∀ c, rouwElem p q n r c * (a + (c : K) * δ - b) ^ 2
      = (a - b) ^ 2 * rouwElem p q n r c + 2 * (a - b) * δ * ((c : K) * rouwElem p q n r c)
        + δ ^ 2 * ((c : K) ^ 2 * rouwElem p q n r c) := by
    intro c; ring
  simp only [this, Finset.sum_add_distrib, ← Finset.mul_sum, rouwElem_mean p q n r hr,
    rouwElem_second_moment p q n r hr, rouwElem_row_sum p q n r hr]
  ring


/-! ### The first row -/

/-- Row 0 of the matrix left by one iteration is the combination of row 0 of the old matrix
with itself shifted by one column; it is not halved. -/
theorem stepElem_row_zero (p q : K) (n : Nat) (e : Nat → Nat → K) (c : Nat) :
    stepElem p q (n + 3) e 0 c
      = (if c ≤ n + 1 then p * e 0 c else 0)
        + (if 1 ≤ c ∧ c ≤ n + 2 then (1 - p) * e 0 (c - 1) else 0) := by
  have a1 : n + 3 - 2 = n + 1 := by omega
  have a2 : n + 3 - 1 = n + 2 := by omega
  simp [stepElem, combElem, a1, a2]

/-- Row 0 of the matrix built by the recursion is the binomial expansion of
`(p + (1-p))^(n+1)`. -/
theorem rouwElem_row_zero (p q : K) (n c : Nat) (hc : c < n + 2) :
    rouwElem p q n 0 c
      = (Nat.choose (n + 1) c : K) * p ^ (n + 1 - c) * (1 - p) ^ c := by
  induction n generalizing c with
  | zero =>
    have : c = 0 ∨ c = 1 := by omega
    rcases this with h | h <;> subst h <;> simp [rouwElem, mPI_base]
  | succ n ih =>
    show stepElem p q (n + 3) (rouwElem p q n) 0 c = _
    rw [stepElem_row_zero]
    rcases Nat.eq_zero_or_pos c with h0 | hpos
    · subst h0
      simp [ih 0 (by omega)]
      ring
    · obtain ⟨c', rfl⟩ : ∃ c', c = c' + 1 := ⟨c - 1, by omega⟩
      have hr : 1 ≤ c' + 1 ∧ c' + 1 ≤ n + 2 := by omega
      simp only [hr, and_self, if_true, Nat.add_sub_cancel]
      by_cases hlast : c' = n + 1
      · subst hlast
        have h1 : ¬ n + 1 + 1 ≤ n + 1 := by omega
        simp [h1, ih (n + 1) (by omega)]
        ring
      · obtain ⟨k, rfl⟩ : ∃ k, n = c' + k := ⟨n - c', by omega⟩
        have h1 : c' + 1 ≤ c' + k + 1 := by omega
        have s1 : c' + k + 1 - (c' + 1) = k := by omega
        have s2 : c' + k + 1 - c' = k + 1 := by omega
        have s3 : c' + k + 1 + 1 - (c' + 1) = k + 1 := by omega
        rw [if_pos h1, ih (c' + 1) (by omega), ih c' (by omega), s1, s2, s3,
          Nat.choose_succ_succ (c' + k + 1) c']
        push_cast
        ring

/-! ### Centro-symmetry -/

theorem combElem_centro (p : K) (n : Nat) (e : Nat → Nat → K)
    (he : ∀ a a' b b', a + a' = n + 1 → b + b' = n + 1 → e a b = e a' b')
    (r r' c c' : Nat) (hr : r + r' = n + 2) (hc : c + c' = n + 2) :
    combElem p p (n + 3) e r c = combElem p p (n + 3) e r' c' := by
  have a1 : n + 3 - 2 = n + 1 := by omega
  have a2 : n + 3 - 1 = n + 2 := by omega
  have t14 : (if r ≤ n + 1 ∧ c ≤ n + 1 then p * e r c else 0)
      = (if 1 ≤ r' ∧ r' ≤ n + 2 ∧ 1 ≤ c' ∧ c' ≤ n + 2 then p * e (r' - 1) (c' - 1) else 0) := by
    by_cases h : r ≤ n + 1 ∧ c ≤ n + 1
    · have h' : 1 ≤ r' ∧ r' ≤ n + 2 ∧ 1 ≤ c' ∧ c' ≤ n + 2 := by omega
      rw [if_pos h, if_pos h', he r (r' - 1) c (c' - 1) (by omega) (by omega)]
    · have h' : ¬ (1 ≤ r' ∧ r' ≤ n + 2 ∧ 1 ≤ c' ∧ c' ≤ n + 2) := by omega
      rw [if_neg h, if_neg h']
  have t41 : (if 1 ≤ r ∧ r ≤ n + 2 ∧ 1 ≤ c ∧ c ≤ n + 2 then p * e (r - 1) (c - 1) else 0)
      = (if r' ≤ n + 1 ∧ c' ≤ n + 1 then p * e r' c' else 0) := by
    by_cases h : 1 ≤ r ∧ r ≤ n + 2 ∧ 1 ≤ c ∧ c ≤ n + 2
    · have h' : r' ≤ n + 1 ∧ c' ≤ n + 1 := by omega
      rw [if_pos h, if_pos h', he (r - 1) r' (c - 1) c' (by omega) (by omega)]
    · have h' : ¬ (r' ≤ n + 1 ∧ c' ≤ n + 1) := by omega
      rw [if_neg h, if_neg h']
  have t23 : (if r ≤ n + 1 ∧ 1 ≤ c ∧ c ≤ n + 2 then (1 - p) * e r (c - 1) else 0)
      = (if 1 ≤ r' ∧ r' ≤ n + 2 ∧ c' ≤ n + 1 then (1 - p) * e (r' - 1) c' else 0) := by
    by_cases h : r ≤ n + 1 ∧ 1 ≤ c ∧ c ≤ n + 2
    · have h' : 1 ≤ r' ∧ r' ≤ n + 2 ∧ c' ≤ n + 1 := by omega
      rw [if_pos h, if_pos h', he r (r' - 1) (c - 1) c' (by omega) (by omega)]
    · have h' : ¬ (1 ≤ r' ∧ r' ≤ n + 2 ∧ c' ≤ n + 1) := by omega
      rw [if_neg h, if_neg h']
  have t32 : (if 1 ≤ r ∧ r ≤ n + 2 ∧ c ≤ n + 1 then (1 - p) * e (r - 1) c else 0)
      = (if r' ≤ n + 1 ∧ 1 ≤ c' ∧ c' ≤ n + 2 then (1 - p) * e r' (c' - 1) else 0) := by
    by_cases h : 1 ≤ r ∧ r ≤ n + 2 ∧ c ≤ n + 1
    · have h' : r' ≤ n + 1 ∧ 1 ≤ c' ∧ c' ≤ n + 2 := by omega
      rw [if_pos h, if_pos h', he (r - 1) r' c (c' - 1) (by omega) (by omega)]
    · have h' : ¬ (r' ≤ n + 1 ∧ 1 ≤ c' ∧ c' ≤ n + 2) := by omega
      rw [if_neg h, if_neg h']
  simp only [combElem, a1, a2]
  rw [t14, t41, t23, t32]
  ring

theorem stepElem_centro (p : K) (n : Nat) (e : Nat → Nat → K)
    (he : ∀ a a' b b', a + a' = n + 1 → b + b' = n + 1 → e a b = e a' b')
    (r r' c c' : Nat) (hr : r + r' = n + 2) (hc : c + c' = n + 2) :
    stepElem p p (n + 3) e r c = stepElem p p (n + 3) e r' c' := by
  have a1 : n + 3 - 2 = n + 1 := by omega
  have a2 : n + 3 - 1 = n + 2 := by omega
  have hcomb := combElem_centro p n e he r r' c c' hr hc
  simp only [stepElem, a1, a2]
  by_cases h : 1 ≤ r ∧ r ≤ n + 1 ∧ c ≤ n + 2
  · have h' : 1 ≤ r' ∧ r' ≤ n + 1 ∧ c' ≤ n + 2 := by omega
    rw [if_pos h, if_pos h', hcomb]
  · have h' : ¬ (1 ≤ r' ∧ r' ≤ n + 1 ∧ c' ≤ n + 2) := by omega
    rw [if_neg h, if_neg h', hcomb]

theorem rouwElem_centro (p : K) (n : Nat) :
    ∀ a a' b b', a + a' = n + 1 → b + b' = n + 1 →
      rouwElem p p n a b = rouwElem p p n a' b' := by
  induction n with
  | zero =>
    intro a a' b b' ha hb
    have h1 : (a = 0 ∧ a' = 1) ∨ (a = 1 ∧ a' = 0) := by omega
    have h2 : (b = 0 ∧ b' = 1) ∨ (b = 1 ∧ b' = 0) := by omega
    rcases h1 with ⟨rfl, rfl⟩ | ⟨rfl, rfl⟩ <;> rcases h2 with ⟨rfl, rfl⟩ | ⟨rfl, rfl⟩ <;>
      simp [rouwElem, mPI_base]
  | succ n ih =>
    intro a a' b b' ha hb
    exact stepElem_centro p n (rouwElem p p n) ih a a' b b' ha hb


/-! ### The loop and the recursion of the specification -/

theorem stepElem_eq_spec_step (p q : K) (n : Nat) (e : Nat → Nat → K) (r c : Nat) :
    stepElem p q (n + 3) e r c = spec_step p q (n + 3) e r c := by
  have a1 : n + 3 - 2 = n + 1 := by omega
  have a2 : n + 3 - 1 = n + 2 := by omega
  have a3 : 1 + (n + 1) = n + 2 := by omega
  simp only [stepElem, combElem, spec_step, spec_embed, a1, a2, a3, Nat.zero_le, true_and,
    zero_add, Nat.sub_zero]
  by_cases h1 : 1 ≤ r ∧ r ≤ n + 1
  · by_cases h2 : c ≤ n + 2
    · have h3 : 1 ≤ r ∧ r ≤ n + 1 ∧ c ≤ n + 2 := ⟨h1.1, h1.2, h2⟩
      rw [if_pos h3, if_pos h1]
      simp only [mul_ite, mul_zero]
      ring
    · have h3 : ¬ (1 ≤ r ∧ r ≤ n + 1 ∧ c ≤ n + 2) := fun h => h2 h.2.2
      have h4 : ¬ c ≤ n + 1 := by omega
      rw [if_neg h3, if_pos h1]
      simp [h2, h4]
  · have h3 : ¬ (1 ≤ r ∧ r ≤ n + 1 ∧ c ≤ n + 2) := fun h => h1 ⟨h.1, h.2.1⟩
    rw [if_neg h3, if_neg h1]
    simp only [mul_ite, mul_zero]

theorem rouwElem_eq_spec_recursion (p q : K) (n : Nat) :
    rouwElem p q n = spec_recursion p q n := by
  induction n with
  | zero => rfl
  | succ n ih =>
    funext r c
    show stepElem p q (n + 3) (rouwElem p q n) r c
      = spec_step p q (n + 3) (spec_recursion p q n) r c
    rw [stepElem_eq_spec_step, ih]


/-! ## Grids compared, and the Tauchen example -/

/-- C11. The Rouwenhorst grid is the Tauchen grid at `m = sqrt(N-1)`: for every `N ≥ 2` and
every `rho`, `sig_e`, the two grids have the same endpoints `z_max`, `z_min` and coincide at
every index `i < N`, when the Tauchen grid is computed from the same `N`, `rho`, `sig_e` with
`m = sqrt(N-1)`. -/
theorem rouwenhorst_grid_eq_tauchen_grid (sqrt : K → K) (junk : Nat → K) (N : Nat)
    (rho sig_e : K) (hN : 2 ≤ N) (i : Nat) (hi : i < N) :
    rouwenhorst_z_max sqrt N rho sig_e = tauchen_z_max sqrt (sqrt ((N : K) - 1)) rho sig_e
      ∧ rouwenhorst_z_min sqrt N rho sig_e = tauchen_z_min sqrt (sqrt ((N : K) - 1)) rho sig_e
      ∧ rouwenhorst_vZ sqrt N rho sig_e i
          = tauchen_vZ sqrt junk N (sqrt ((N : K) - 1)) rho sig_e i := by
  have hmax : rouwenhorst_z_max sqrt N rho sig_e
      = tauchen_z_max sqrt (sqrt ((N : K) - 1)) rho sig_e := by
    unfold rouwenhorst_z_max tauchen_z_max
    ring
  have hmin : rouwenhorst_z_min sqrt N rho sig_e
      = tauchen_z_min sqrt (sqrt ((N : K) - 1)) rho sig_e := by
    unfold rouwenhorst_z_min tauchen_z_min
    rw [hmax]
  refine ⟨hmax, hmin, ?_⟩
  rw [tauchen_vZ_apply sqrt junk N _ rho sig_e hN i hi]
  unfold rouwenhorst_vZ linspace tauchen_d
  rw [hmax, hmin]

/-- For `N = 5` the multiplier `sqrt(N-1)` is 2. -/
theorem sqrt_four : Real.sqrt (((5 : Nat) : ℝ) - 1) = 2 := by
  have : (((5 : Nat) : ℝ) - 1) = 2 ^ 2 := by norm_num
  rw [this]
  exact Real.sqrt_sq (by norm_num)

/-- Witness for C11: `N = 5`, `rho = 0.95`, where `m = sqrt(5-1) = 2`; the index 3. -/
theorem rouwenhorst_grid_eq_tauchen_grid_witness :
    2 ≤ 5 ∧ 3 < 5 ∧
    rouwenhorst_vZ Real.sqrt 5 (0.95 : ℝ) 0.007 3
      = tauchen_vZ Real.sqrt (fun _ => 0) 5 (2 : ℝ) 0.95 0.007 3 := by
  have h := (rouwenhorst_grid_eq_tauchen_grid Real.sqrt (fun _ => 0) 5 (0.95 : ℝ) 0.007
    (by norm_num) 3 (by norm_num)).2.2
  rw [sqrt_four] at h
  exact ⟨by norm_num, by norm_num, h⟩

/-! ## The Tauchen example `N = 5`, `rho = 0.95`, `sig_e = 0.007`, `m = 3` -/

theorem sig_z_example : sig_z Real.sqrt (0.95 : ℝ) 0.007 = 0.007 / Real.sqrt 0.0975 := by
  unfold sig_z
  rw [Real.sqrt_div (by positivity), Real.sqrt_sq (by norm_num)]
  norm_num

theorem tauchen_z_max_example_bounds :
    0.06725 < tauchen_z_max Real.sqrt (3 : ℝ) 0.95 0.007
      ∧ tauchen_z_max Real.sqrt (3 : ℝ) 0.95 0.007 < 0.0673 := by
  unfold tauchen_z_max sig_z
  have hlo : (0.0224167 : ℝ) < Real.sqrt (0.007 ^ 2 / (1 - 0.95 ^ 2)) := by
    apply Real.lt_sqrt_of_sq_lt
    norm_num
  have hhi : Real.sqrt (0.007 ^ 2 / (1 - 0.95 ^ 2)) < (0.022433 : ℝ) := by
    rw [Real.sqrt_lt' (by norm_num)]
    norm_num
  constructor <;> linarith

/-- C16. Tauchen with `N = 5`, `rho = 0.95`, `sig_e = 0.007`, `m = 3`:
`sig_z = 0.007/sqrt(0.0975)`, `z_max = 3*sig_z`, and the grid rounds to 4 decimals as
`[-0.0673, -0.0336, 0.0000, 0.0336, 0.0673]`: every grid point is strictly within `0.00005`
of the listed value, and the middle point is exactly 0. -/
theorem tauchen_example_grid :
    sig_z Real.sqrt (0.95 : ℝ) 0.007 = 0.007 / Real.sqrt 0.0975
      ∧ tauchen_z_max Real.sqrt (3 : ℝ) 0.95 0.007 = 3 * sig_z Real.sqrt (0.95 : ℝ) 0.007
      ∧ |tauchen_vZ Real.sqrt (fun _ => 0) 5 (3 : ℝ) 0.95 0.007 0 - (-0.0673)| < 0.00005
      ∧ |tauchen_vZ Real.sqrt (fun _ => 0) 5 (3 : ℝ) 0.95 0.007 1 - (-0.0336)| < 0.00005
      ∧ tauchen_vZ Real.sqrt (fun _ => 0) 5 (3 : ℝ) 0.95 0.007 2 = 0
      ∧ |tauchen_vZ Real.sqrt (fun _ => 0) 5 (3 : ℝ) 0.95 0.007 3 - 0.0336| < 0.00005
      ∧ |tauchen_vZ Real.sqrt (fun _ => 0) 5 (3 : ℝ) 0.95 0.007 4 - 0.0673| < 0.00005 := by
  obtain ⟨hlo, hhi⟩ := tauchen_z_max_example_bounds
  have hg : ∀ i, i < 5 → tauchen_vZ Real.sqrt (fun _ => 0) 5 (3 : ℝ) 0.95 0.007 i
      = -tauchen_z_max Real.sqrt (3 : ℝ) 0.95 0.007
        + (i : ℝ) * (tauchen_z_max Real.sqrt (3 : ℝ) 0.95 0.007 / 2) := by
    intro i hi
    rw [tauchen_vZ_apply Real.sqrt _ 5 3 0.95 0.007 (by norm_num) i hi]
    unfold tauchen_d tauchen_z_min
    push_cast
    ring
  refine ⟨sig_z_example, rfl, ?_, ?_, ?_, ?_, ?_⟩
  · rw [hg 0 (by norm_num), abs_lt]; constructor <;> norm_num <;> linarith
  · rw [hg 1 (by norm_num), abs_lt]; constructor <;> norm_num <;> linarith
  · rw [hg 2 (by norm_num)]; push_cast; ring
  · rw [hg 3 (by norm_num), abs_lt]; constructor <;> norm_num <;> linarith
  · rw [hg 4 (by norm_num), abs_lt]; constructor <;> norm_num <;> linarith


/-! ## Rouwenhorst: conditional moments -/

/-- C12. Rouwenhorst matches the conditional mean exactly: for every `N ≥ 2`, every `rho` and
`sig_e`, and every row `i < N`, the matrix `M` built by the recursion and the grid `z` satisfy
`Σ_j M[i][j]·z[j] = rho·z[i]`. -/
theorem rouwenhorst_conditional_mean (sqrt : K → K) (junk : Nat → Nat → K) (N : Nat)
    (rho sig_e : K) (hN : 2 ≤ N) :
    ∃ M, rouwenhorst_mPI_old junk N (rouwenhorst_p rho) (rouwenhorst_p rho) = some M
      ∧ ∀ i, i < N →
        ∑ j in range N, M.elem i j * rouwenhorst_vZ sqrt N rho sig_e j
          = rho * rouwenhorst_vZ sqrt N rho sig_e i := by
  refine ⟨_, rouwenhorst_mPI_old_eq junk N _ _ hN, ?_⟩
  obtain ⟨n, rfl⟩ : ∃ n, N = n + 2 := ⟨N - 2, by omega⟩
  intro i hi
  have hn : ((n : K) + 1) ≠ 0 := by positivity
  have hcast : (((n + 2 : Nat) : K) - 1) = (n : K) + 1 := by push_cast; ring
  simp only [rouwenhorst_vZ, linspace, Nat.add_sub_cancel, hcast]
  rw [rouwElem_affine_mean _ _ _ _ n i hi]
  unfold rouwenhorst_z_min rouwenhorst_p
  field_simp
  ring

/-- Witness for C12: `N = 5`, `rho = 0.95`, `sig_e = 0.007`. -/
theorem rouwenhorst_conditional_mean_witness :
    2 ≤ 5 ∧
    ∃ M, rouwenhorst_mPI_old (fun _ _ => (0 : ℝ)) 5 (rouwenhorst_p 0.95) (rouwenhorst_p 0.95)
        = some M
      ∧ ∀ i, i < 5 →
        ∑ j in range 5, M.elem i j * rouwenhorst_vZ Real.sqrt 5 (0.95 : ℝ) 0.007 j
          = 0.95 * rouwenhorst_vZ Real.sqrt 5 (0.95 : ℝ) 0.007 i :=
  ⟨by norm_num,
    rouwenhorst_conditional_mean Real.sqrt (fun _ _ => (0 : ℝ)) 5 0.95 0.007 (by norm_num)⟩

/-- C13. Rouwenhorst matches the conditional variance exactly: for every `N ≥ 2`, every `rho`
in `(-1,1)`, every `sig_e` and every row `i < N`, the matrix `M` and the grid `z` satisfy
`Σ_j M[i][j]·(z[j] - rho·z[i])² = sig_e²`, whatever `i` and `N`. -/
theorem rouwenhorst_conditional_variance (junk : Nat → Nat → ℝ) (N : Nat)
    (rho sig_e : ℝ) (hN : 2 ≤ N) (h1 : -1 < rho) (h2 : rho < 1) :
    ∃ M, rouwenhorst_mPI_old junk N (rouwenhorst_p rho) (rouwenhorst_p rho) = some M
      ∧ ∀ i, i < N →
        ∑ j in range N, M.elem i j
            * (rouwenhorst_vZ Real.sqrt N rho sig_e j
                - rho * rouwenhorst_vZ Real.sqrt N rho sig_e i) ^ 2
          = sig_e ^ 2 := by
  refine ⟨_, rouwenhorst_mPI_old_eq junk N _ _ hN, ?_⟩
  obtain ⟨n, rfl⟩ : ∃ n, N = n + 2 := ⟨N - 2, by omega⟩
  intro i hi
  have hn : (0 : ℝ) < (n : ℝ) + 1 := by positivity
  have hcast : (((n + 2 : Nat) : ℝ) - 1) = (n : ℝ) + 1 := by push_cast; ring
  have hrho : 0 < 1 - rho ^ 2 := by nlinarith
  have hpsi : rouwenhorst_z_max Real.sqrt (n + 2) rho sig_e ^ 2
      = sig_e ^ 2 / (1 - rho ^ 2) * ((n : ℝ) + 1) := by
    unfold rouwenhorst_z_max sig_z
    rw [hcast, mul_pow, Real.sq_sqrt (by positivity), Real.sq_sqrt hn.le]
  simp only [rouwenhorst_vZ, linspace, Nat.add_sub_cancel, hcast]
  rw [rouwElem_affine_sq _ _ _ _ _ n i hi]
  unfold rouwenhorst_z_min rouwenhorst_p
  have hne : (1 - rho ^ 2) ≠ 0 := hrho.ne'
  have hn' : ((n : ℝ) + 1) ≠ 0 := hn.ne'
  have e1 : -rouwenhorst_z_max Real.sqrt (n + 2) rho sig_e
      - rho * (-rouwenhorst_z_max Real.sqrt (n + 2) rho sig_e
          + (i : ℝ) * ((rouwenhorst_z_max Real.sqrt (n + 2) rho sig_e
              - -rouwenhorst_z_max Real.sqrt (n + 2) rho sig_e) / ((n : ℝ) + 1)))
      + (rouwenhorst_z_max Real.sqrt (n + 2) rho sig_e
          - -rouwenhorst_z_max Real.sqrt (n + 2) rho sig_e) / ((n : ℝ) + 1)
        * (((n : ℝ) + 1) * (1 - (1 + rho) / 2) + (i : ℝ) * ((1 + rho) / 2 + (1 + rho) / 2 - 1))
      = 0 := by
    field_simp
    ring
  rw [e1]
  have e2 : ((rouwenhorst_z_max Real.sqrt (n + 2) rho sig_e
          - -rouwenhorst_z_max Real.sqrt (n + 2) rho sig_e) / ((n : ℝ) + 1)) ^ 2
        * (((n : ℝ) + 1 - (i : ℝ)) * ((1 + rho) / 2 * (1 - (1 + rho) / 2))
            + (i : ℝ) * ((1 + rho) / 2 * (1 - (1 + rho) / 2)))
      = rouwenhorst_z_max Real.sqrt (n + 2) rho sig_e ^ 2 * (1 - rho ^ 2) / ((n : ℝ) + 1) := by
    field_simp
    ring
  rw [e2, hpsi]
  field_simp

/-- Witness for C13: `N = 5`, `rho = 0.95`, `sig_e = 0.007`. -/
theorem rouwenhorst_conditional_variance_witness :
    2 ≤ 5 ∧ (-1 : ℝ) < 0.95 ∧ (0.95 : ℝ) < 1 ∧
    ∃ M, rouwenhorst_mPI_old (fun _ _ => (0 : ℝ)) 5 (rouwenhorst_p 0.95) (rouwenhorst_p 0.95)
        = some M
      ∧ ∀ i, i < 5 →
        ∑ j in range 5, M.elem i j
            * (rouwenhorst_vZ Real.sqrt 5 (0.95 : ℝ) 0.007 j
                - 0.95 * rouwenhorst_vZ Real.sqrt 5 (0.95 : ℝ) 0.007 i) ^ 2
          = (0.007 : ℝ) ^ 2 :=
  ⟨by norm_num, by norm_num, by norm_num,
    rouwenhorst_conditional_variance (fun _ _ => (0 : ℝ)) 5 0.95 0.007 (by norm_num)
      (by norm_num) (by norm_num)⟩

/-! ## The programs as a whole -/

/-- The loop never meets a rejected Armadillo operation: whatever `N`, `p`, `q`. -/
theorem rouwenhorst_run_eq (junk : Nat → Nat → K) (N : Nat) (p q : K) :
    rouwenhorst_run junk N p q
      = some ⟨⟨N - 2 + 2, N - 2 + 2, rouwElem p q (N - 2)⟩,
          if N - 2 = 0 then ⟨3, 3, junk⟩ else ⟨N - 2 + 2, N - 2 + 2, rouwElem p q (N - 2)⟩⟩ :=
  rouwenhorst_loop_eq p q ⟨3, 3, junk⟩ (N - 2)

/-- C14 (as stated, refuted). With `rho = 1`, so that `|rho| ≥ 1`, neither program fails:
each one produces a grid and a transition matrix. -/
theorem no_domain_error_at_rho_one :
    (1 : ℝ) ≤ |1|
      ∧ tauchen_main Real.sqrt Real.exp (fun _ => 0) 5 (3 : ℝ) 1 0.007 ≠ none
      ∧ rouwenhorst_main Real.sqrt (fun _ _ => 0) 5 (1 : ℝ) 0.007 ≠ none := by
  refine ⟨by norm_num, by simp [tauchen_main], ?_⟩
  simp [rouwenhorst_main, rouwenhorst_output, rouwenhorst_run_eq]

/-- C14 (amended). No domain validation: for every input with `|rho| ≥ 1` each program runs
to its end and produces a grid and a transition matrix, the ones of the usual formulas; no
error is raised at the `sig_z` step or anywhere else. -/
theorem no_domain_validation (sqrt exp : K → K) (junkT : Nat → K) (junkR : Nat → Nat → K)
    (N : Nat) (m rho sig_e : K) (_hrho : 1 ≤ |rho|) :
    (∃ mc, tauchen_main sqrt exp junkT N m rho sig_e = some mc
        ∧ mc.grid = tauchen_vZ sqrt junkT N m rho sig_e
        ∧ mc.matrix = tauchen_mPI sqrt (phi sqrt exp) junkT N m rho sig_e)
      ∧ (∃ mc, rouwenhorst_main sqrt junkR N rho sig_e = some mc
        ∧ mc.grid = rouwenhorst_vZ sqrt N rho sig_e) := by
  refine ⟨⟨_, rfl, rfl, rfl⟩, ?_⟩
  simp [rouwenhorst_main, rouwenhorst_output, rouwenhorst_run_eq]

/-- Witness for C14 (amended): `rho = -2`. -/
theorem no_domain_validation_witness :
    (1 : ℝ) ≤ |(-2)| ∧
    ∃ mc, rouwenhorst_main Real.sqrt (fun _ _ => 0) 5 (-2 : ℝ) 0.007 = some mc
      ∧ mc.grid = rouwenhorst_vZ Real.sqrt 5 (-2 : ℝ) 0.007 :=
  ⟨by norm_num, (no_domain_validation Real.sqrt Real.exp (fun _ => 0) (fun _ _ => 0) 5 3 (-2)
    0.007 (by norm_num)).2⟩

/-- The program's output for `N ≥ 3`. -/
theorem rouwenhorst_output_eq (junk : Nat → Nat → K) (N : Nat) (rho : K) (hN : 3 ≤ N) :
    rouwenhorst_output junk N rho
      = some ⟨N, N, rouwElem (rouwenhorst_p rho) (rouwenhorst_p rho) (N - 2)⟩ := by
  obtain ⟨n, rfl⟩ : ∃ n, N = n + 3 := ⟨N - 3, by omega⟩
  have h : n + 3 - 2 = n + 1 := by omega
  simp [rouwenhorst_output, rouwenhorst_run_eq, h]

/-- C15 (as stated, refuted). For `N = 5`, `rho = 0.95` the matrix the program produces is
not the result of four steps of the recursion: already its corner entry is `0.975^4`, while
four steps give `0.975^5` (and a 6×6 matrix). -/
theorem rouwenhorst_N5_not_four_steps :
    ¬ ∃ M, rouwenhorst_output (fun _ _ => (0 : ℝ)) 5 0.95 = some M
        ∧ ∀ r c, r < 5 → c < 5 →
          M.elem r c = spec_recursion (rouwenhorst_p 0.95) (rouwenhorst_p 0.95) 4 r c := by
  rintro ⟨M, hM, h⟩
  rw [rouwenhorst_output_eq _ 5 _ (by norm_num)] at hM
  have hM' := (Option.some.inj hM).symm
  subst hM'
  have h00 := h 0 0 (by norm_num) (by norm_num)
  rw [← rouwElem_eq_spec_recursion] at h00
  simp only [Nat.add_sub_cancel] at h00
  rw [show 5 - 2 = 3 from rfl,
    rouwElem_row_zero _ _ 3 0 (by norm_num), rouwElem_row_zero _ _ 4 0 (by norm_num)] at h00
  norm_num [rouwenhorst_p] at h00

/-- C15 (amended). With `N = 5` and `rho = 0.95` the base matrix is
`[[0.975, 0.025], [0.025, 0.975]]` and the 5×5 transition matrix the program produces is the
result of applying the embed-combine-halve step of the specification 3 times (for the sizes
3, 4, 5) starting from that base. -/
theorem rouwenhorst_N5_three_steps :
    rouwenhorst_p (0.95 : ℝ) = 0.975
      ∧ 1 - rouwenhorst_p (0.95 : ℝ) = 0.025
      ∧ (∀ r c, (mPI_base (rouwenhorst_p (0.95 : ℝ)) (rouwenhorst_p 0.95)).elem r c
            = spec_recursion (rouwenhorst_p (0.95 : ℝ)) (rouwenhorst_p 0.95) 0 r c)
      ∧ ∀ junk : Nat → Nat → ℝ, ∃ M, rouwenhorst_output junk 5 0.95 = some M
          ∧ M.n_rows = 5 ∧ M.n_cols = 5
          ∧ ∀ r c, M.elem r c
              = spec_recursion (rouwenhorst_p (0.95 : ℝ)) (rouwenhorst_p 0.95) 3 r c := by
  refine ⟨by norm_num [rouwenhorst_p], by norm_num [rouwenhorst_p], fun _ _ => rfl, ?_⟩
  intro junk
  refine ⟨_, rouwenhorst_output_eq junk 5 _ (by norm_num), rfl, rfl, ?_⟩
  intro r c
  rw [← rouwElem_eq_spec_recursion]


/-! ## Rouwenhorst: first row, symmetry, shapes -/

/-- C18. Closed form of the first Rouwenhorst row: for every `N ≥ 2` and all `p` (and `q`),
row 0 of the matrix built by the recursion is `M[0][j] = C(N-1,j) p^(N-1-j) (1-p)^j` for
`j < N`, so the corner entry is `p^(N-1)`; and row 0 is never halved: each iteration of the
loop body sets it to `p·old[0][j] + (1-p)·old[0][j-1]`. -/
theorem rouwenhorst_first_row_binomial (junk : Nat → Nat → K) (N : Nat) (p q : K)
    (hN : 2 ≤ N) :
    (∃ M, rouwenhorst_mPI_old junk N p q = some M
        ∧ (∀ j, j < N →
            M.elem 0 j = (Nat.choose (N - 1) j : K) * p ^ (N - 1 - j) * (1 - p) ^ j)
        ∧ M.elem 0 0 = p ^ (N - 1))
      ∧ (∀ (k : Nat) (s : RState K), 3 ≤ k →
          s.mPI_old.n_rows = k - 1 → s.mPI_old.n_cols = k - 1 →
          ∃ M, rouwenhorst_body p q k s = some ⟨M, M⟩
            ∧ ∀ j, j < k → M.elem 0 j
                = (if j ≤ k - 2 then p * s.mPI_old.elem 0 j else 0)
                  + (if 1 ≤ j then (1 - p) * s.mPI_old.elem 0 (j - 1) else 0)) := by
  constructor
  · refine ⟨_, rouwenhorst_mPI_old_eq junk N p q hN, ?_, ?_⟩
    · obtain ⟨n, rfl⟩ : ∃ n, N = n + 2 := ⟨N - 2, by omega⟩
      intro j hj
      exact rouwElem_row_zero p q n j hj
    · obtain ⟨n, rfl⟩ : ∃ n, N = n + 2 := ⟨N - 2, by omega⟩
      have h := rouwElem_row_zero p q n 0 (by omega)
      simpa using h
  · intro k s hk hr hc
    refine ⟨_, rouwenhorst_body_step p q k s hk hr hc, ?_⟩
    obtain ⟨n, rfl⟩ : ∃ n, k = n + 3 := ⟨k - 3, by omega⟩
    intro j hj
    have a1 : n + 3 - 2 = n + 1 := by omega
    have hj2 : j ≤ n + 2 := by omega
    show stepElem p q (n + 3) s.mPI_old.elem 0 j = _
    rw [stepElem_row_zero, a1]
    simp only [hj2, and_true]

/-- Witness for C18: `N = 5`, `p = q = 0.975`, over the rationals. -/
theorem rouwenhorst_first_row_binomial_witness :
    2 ≤ 5 ∧
    ∃ M, rouwenhorst_mPI_old (fun _ _ => (0 : ℚ)) 5 0.975 0.975 = some M
      ∧ (∀ j, j < 5 →
          M.elem 0 j = (Nat.choose (5 - 1) j : ℚ) * 0.975 ^ (5 - 1 - j) * (1 - 0.975) ^ j)
      ∧ M.elem 0 0 = 0.975 ^ (5 - 1) :=
  ⟨by norm_num,
    (rouwenhorst_first_row_binomial (fun _ _ => (0 : ℚ)) 5 0.975 0.975 (by norm_num)).1⟩

/-- C19. Rouwenhorst centro-symmetry: with `q = p = (1+rho)/2` as the program sets them, for
every `N ≥ 2` the matrix built by the recursion satisfies `M[i][j] = M[N-1-i][N-1-j]` for
all `i, j < N`. -/
theorem rouwenhorst_centro_symmetric (junk : Nat → Nat → K) (N : Nat) (rho : K)
    (hN : 2 ≤ N) :
    ∃ M, rouwenhorst_mPI_old junk N (rouwenhorst_p rho) (rouwenhorst_p rho) = some M
      ∧ ∀ i j, i < N → j < N → M.elem i j = M.elem (N - 1 - i) (N - 1 - j) := by
  refine ⟨_, rouwenhorst_mPI_old_eq junk N _ _ hN, ?_⟩
  obtain ⟨n, rfl⟩ : ∃ n, N = n + 2 := ⟨N - 2, by omega⟩
  intro i j hi hj
  exact rouwElem_centro _ n i (n + 2 - 1 - i) j (n + 2 - 1 - j) (by omega) (by omega)

/-- Witness for C19: `N = 5`, `rho = 0.95`, over the rationals. -/
theorem rouwenhorst_centro_symmetric_witness :
    2 ≤ 5 ∧
    ∃ M, rouwenhorst_mPI_old (fun _ _ => (0 : ℚ)) 5 (rouwenhorst_p 0.95) (rouwenhorst_p 0.95)
        = some M
      ∧ ∀ i j, i < 5 → j < 5 → M.elem i j = M.elem (5 - 1 - i) (5 - 1 - j) :=
  ⟨by norm_num, rouwenhorst_centro_symmetric (fun _ _ => (0 : ℚ)) 5 0.95 (by norm_num)⟩

/-- C20. Rouwenhorst shape safety: for every `N ≥ 3`, at the start of each loop iteration
`i` (`3 ≤ i ≤ N`) the program has reached a state in which `mPI_old` is `(i-1)×(i-1)`; each
of the four submatrix assignments is accepted, the block `rows 1..i-2, columns 0..i-1` read
and written by the halving lies inside any `i×i` matrix and has the shape `(i-2)×i`, and the
whole body is accepted and leaves `i×i` matrices; after the loop `mPI_new` is `N×N`, so every
output read `mPI_new(i,j)` with `i, j < N` is in bounds. -/
theorem rouwenhorst_shape_safety (junk : Nat → Nat → K) (N : Nat) (p q : K) (hN : 3 ≤ N) :
    (∀ i, 3 ≤ i → i ≤ N →
        ∃ s, rouwenhorst_loop p q ⟨mPI_base p q, ⟨3, 3, junk⟩⟩ (i - 3) = some s
          ∧ s.mPI_old.n_rows = i - 1 ∧ s.mPI_old.n_cols = i - 1
          ∧ ((Mat.zeros i i : Mat K).setSubmat 0 0 (i - 2) (i - 2) s.mPI_old).isSome = true
          ∧ ((Mat.zeros i i : Mat K).setSubmat 0 1 (i - 2) (i - 1) s.mPI_old).isSome = true
          ∧ ((Mat.zeros i i : Mat K).setSubmat 1 0 (i - 1) (i - 2) s.mPI_old).isSome = true
          ∧ ((Mat.zeros i i : Mat K).setSubmat 1 1 (i - 1) (i - 1) s.mPI_old).isSome = true
          ∧ (∀ A : Mat K, A.n_rows = i → A.n_cols = i →
              ∃ B, A.getSubmat 1 0 (i - 2) (i - 1) = some B
                ∧ B.n_rows = i - 2 ∧ B.n_cols = i
                ∧ (A.setSubmat 1 0 (i - 2) (i - 1) (Mat.smul 0.5 B)).isSome = true)
          ∧ ∃ s', rouwenhorst_body p q i s = some s'
              ∧ s'.mPI_new.n_rows = i ∧ s'.mPI_new.n_cols = i
              ∧ s'.mPI_old.n_rows = i ∧ s'.mPI_old.n_cols = i)
      ∧ ∃ M, (rouwenhorst_run junk N p q).map RState.mPI_new = some M
          ∧ M.n_rows = N ∧ M.n_cols = N
          ∧ ∀ i j, i < N → j < N → i < M.n_rows ∧ j < M.n_cols := by
  constructor
  · intro i hi _
    obtain ⟨n, rfl⟩ : ∃ n, i = n + 3 := ⟨i - 3, by omega⟩
    have a0 : n + 3 - 3 = n := by omega
    have a1 : n + 3 - 2 = n + 1 := by omega
    have a2 : n + 3 - 1 = n + 2 := by omega
    refine ⟨_, by rw [a0]; exact rouwenhorst_loop_eq p q ⟨3, 3, junk⟩ n, ?_, ?_, ?_, ?_, ?_, ?_,
      ?_, ?_⟩
    · simp
    · simp
    · simp [Mat.setSubmat, Mat.zeros, a1, a2]
    · simp [Mat.setSubmat, Mat.zeros, a1, a2]
    · simp [Mat.setSubmat, Mat.zeros, a1, a2]
    · simp [Mat.setSubmat, Mat.zeros, a1, a2]
    · intro A hr hc
      refine ⟨⟨n + 1, n + 3, fun r c => A.elem (1 + r) (0 + c)⟩, ?_, ?_, ?_, ?_⟩
      · simp [Mat.getSubmat, hr, hc, a1, a2]
      · simp [a1]
      · rfl
      · simp [Mat.setSubmat, Mat.smul, hr, hc, a1, a2]
    · rw [rouwenhorst_body_eq]
      exact ⟨_, rfl, rfl, rfl, rfl, rfl⟩
  · obtain ⟨n, rfl⟩ : ∃ n, N = n + 3 := ⟨N - 3, by omega⟩
    have h : n + 3 - 2 = n + 1 := by omega
    refine ⟨⟨n + 3, n + 3, rouwElem p q (n + 1)⟩, ?_, rfl, rfl, ?_⟩
    · simp [rouwenhorst_run, rouwenhorst_loop_eq, h]
    · intro i j hi hj
      exact ⟨hi, hj⟩

/-- Witness for C20: `N = 5`, `p = q = 0.975`, over the rationals. -/
theorem rouwenhorst_shape_safety_witness :
    3 ≤ 5 ∧
    ∃ M, (rouwenhorst_run (fun _ _ => (0 : ℚ)) 5 0.975 0.975).map RState.mPI_new = some M
      ∧ M.n_rows = 5 ∧ M.n_cols = 5
      ∧ ∀ i j, i < 5 → j < 5 → i < M.n_rows ∧ j < M.n_cols :=
  ⟨by norm_num, (rouwenhorst_shape_safety (fun _ _ => (0 : ℚ)) 5 0.975 0.975 (by norm_num)).2⟩


/-! ## Accuracy of `phi` against the normal distribution function -/

open MeasureTheory ProbabilityTheory

/-- The standard normal distribution function has the Gaussian density as derivative, and is
symmetric: `Φ(x) + Φ(-x) = 1`. -/
theorem stdNormalCDF_calculus :
    (∀ x : ℝ, HasDerivAt stdNormalCDF
        ((Real.sqrt (2 * Real.pi))⁻¹ * Real.exp (-(x ^ 2) / 2)) x)
      ∧ ∀ x : ℝ, stdNormalCDF x + stdNormalCDF (-x) = 1 := by
  have pdf_std : ∀ x : ℝ,
      gaussianPDFReal 0 1 x = (Real.sqrt (2 * Real.pi))⁻¹ * Real.exp (-(x ^ 2) / 2) := by
    intro x
    simp [gaussianPDFReal]
  have pdf_cont : Continuous (gaussianPDFReal 0 1) := by
    have : gaussianPDFReal 0 1
        = fun x => (Real.sqrt (2 * Real.pi))⁻¹ * Real.exp (-(x ^ 2) / 2) := funext pdf_std
    rw [this]
    fun_prop
  have cdf_integral : ∀ x : ℝ, stdNormalCDF x = ∫ t in Set.Iic x, gaussianPDFReal 0 1 t := by
    intro x
    rw [stdNormalCDF, cdf_eq_toReal, gaussianReal_apply_eq_integral _ one_ne_zero,
      ENNReal.toReal_ofReal]
    exact setIntegral_nonneg measurableSet_Iic (fun t _ => gaussianPDFReal_nonneg 0 1 t)
  have cdf_sub : ∀ a b : ℝ,
      stdNormalCDF b - stdNormalCDF a = ∫ t in a..b, gaussianPDFReal 0 1 t := by
    intro a b
    rw [cdf_integral, cdf_integral]
    exact intervalIntegral.integral_Iic_sub_Iic (integrable_gaussianPDFReal 0 1).integrableOn
      (integrable_gaussianPDFReal 0 1).integrableOn
  have cdf_deriv : ∀ x : ℝ, HasDerivAt stdNormalCDF (gaussianPDFReal 0 1 x) x := by
    intro x
    have h : stdNormalCDF
        = fun y => stdNormalCDF 0 + ∫ t in (0 : ℝ)..y, gaussianPDFReal 0 1 t := by
      funext y
      rw [← cdf_sub 0 y]
      ring
    rw [h]
    apply HasDerivAt.const_add
    exact intervalIntegral.integral_hasDerivAt_right
      ((integrable_gaussianPDFReal 0 1).intervalIntegrable)
      (pdf_cont.stronglyMeasurableAtFilter _ _)
      pdf_cont.continuousAt
  have hd : ∀ y, HasDerivAt (fun y => stdNormalCDF y + stdNormalCDF (-y)) 0 y := by
    intro y
    have h1 := cdf_deriv y
    have h2 : HasDerivAt (fun y => stdNormalCDF (-y)) (gaussianPDFReal 0 1 (-y) * (-1)) y :=
      (cdf_deriv (-y)).comp y (hasDerivAt_neg y)
    have h3 := h1.add h2
    have e : gaussianPDFReal 0 1 y + gaussianPDFReal 0 1 (-y) * (-1) = 0 := by
      rw [pdf_std, pdf_std]
      ring_nf
    rw [e] at h3
    exact h3
  have hconst : ∀ y z,
      stdNormalCDF y + stdNormalCDF (-y) = stdNormalCDF z + stdNormalCDF (-z) := by
    intro y z
    exact is_const_of_deriv_eq_zero (fun y => (hd y).differentiableAt) (fun y => (hd y).deriv) y z
  have hlim : Filter.Tendsto (fun y => stdNormalCDF y + stdNormalCDF (-y)) Filter.atTop
      (nhds (1 + 0)) := by
    apply Filter.Tendsto.add
    · exact tendsto_cdf_atTop _
    · exact (tendsto_cdf_atBot (gaussianReal 0 1)).comp Filter.tendsto_neg_atTop_atBot
  refine ⟨fun x => ?_, fun x => ?_⟩
  · rw [← pdf_std]
    exact cdf_deriv x
  · have hlim2 : Filter.Tendsto (fun y => stdNormalCDF y + stdNormalCDF (-y)) Filter.atTop
        (nhds (stdNormalCDF x + stdNormalCDF (-x))) := by
      have : (fun y => stdNormalCDF y + stdNormalCDF (-y))
          = fun _ => stdNormalCDF x + stdNormalCDF (-x) := funext fun y => hconst y x
      rw [this]
      exact tendsto_const_nhds
    have := tendsto_nhds_unique hlim2 hlim
    linarith

/-- The partial sums of the exponential series at `-y`, `y ≥ 0`, lie alternately below and
above `exp(-y)`: an even number of terms gives a lower bound, an odd number an upper bound. -/
theorem exp_series_bounds (m : Nat) (y : ℝ) (hy : 0 ≤ y) :
    expSum (2 * m) y ≤ Real.exp (-y) ∧ Real.exp (-y) ≤ expSum (2 * m + 1) y := by
  have hderiv : ∀ (n : Nat) (y : ℝ),
      HasDerivAt (fun y : ℝ => expSum (n + 1) y) (-(expSum n y)) y := by
    intro n y
    unfold expSum
    rw [show (-(∑ k in range n, (-y) ^ k / (Nat.factorial k : ℝ)))
        = ∑ k in range (n + 1),
            (if k = 0 then 0 else -((-y) ^ (k - 1) / (Nat.factorial (k - 1) : ℝ)))
        from ?_]
    · apply HasDerivAt.sum
      intro k _
      rcases Nat.eq_zero_or_pos k with h | h
      · subst h
        simp
        exact hasDerivAt_const y 1
      · obtain ⟨j, rfl⟩ : ∃ j, k = j + 1 := ⟨k - 1, by omega⟩
        have hj : j + 1 ≠ 0 := by omega
        simp only [hj, if_false, Nat.add_sub_cancel]
        have h1 : HasDerivAt (fun y : ℝ => (-y) ^ (j + 1))
            (((j + 1 : ℕ) : ℝ) * (-y) ^ j * (-1)) y := by
          have := (hasDerivAt_neg y).pow (j + 1)
          simpa using this
        have h2 := h1.div_const (Nat.factorial (j + 1) : ℝ)
        convert h2 using 1
        rw [Nat.factorial_succ]
        push_cast
        have hf : (Nat.factorial j : ℝ) ≠ 0 := by positivity
        have hj1 : ((j : ℝ) + 1) ≠ 0 := by positivity
        field_simp
        ring
    · rw [Finset.sum_range_succ']
      simp
  have alt : ∀ (n : Nat) (y : ℝ), 0 ≤ y → 0 ≤ (-1) ^ n * (Real.exp (-y) - expSum n y) := by
    intro n
    induction n with
    | zero =>
      intro y _
      simp [expSum]
      exact (Real.exp_pos _).le
    | succ n ih =>
      intro y hy
      have hd : ∀ z : ℝ,
          HasDerivAt (fun z => (-1 : ℝ) ^ (n + 1) * (Real.exp (-z) - expSum (n + 1) z))
            ((-1) ^ n * (Real.exp (-z) - expSum n z)) z := by
        intro z
        have h1 : HasDerivAt (fun z : ℝ => Real.exp (-z)) (Real.exp (-z) * (-1)) z :=
          (Real.hasDerivAt_exp (-z)).comp z (hasDerivAt_neg z)
        have h2 := (h1.sub (hderiv n z)).const_mul ((-1 : ℝ) ^ (n + 1))
        convert h2 using 1
        rw [pow_succ]
        ring
      have hmono : MonotoneOn
          (fun z => (-1 : ℝ) ^ (n + 1) * (Real.exp (-z) - expSum (n + 1) z)) (Set.Ici 0) := by
        apply monotoneOn_of_deriv_nonneg (convex_Ici 0)
        · exact fun z _ => (hd z).continuousAt.continuousWithinAt
        · exact fun z _ => (hd z).differentiableAt.differentiableWithinAt
        · intro z hz
          rw [(hd z).deriv]
          rw [interior_Ici] at hz
          exact ih z (le_of_lt hz)
      have h0 := hmono (Set.mem_Ici.mpr (le_refl (0:ℝ))) (Set.mem_Ici.mpr hy) hy
      have e0 : (-1 : ℝ) ^ (n + 1) * (Real.exp (-0) - expSum (n + 1) 0) = 0 := by
        simp [expSum, Finset.sum_range_succ']
      simp only at h0
      rw [e0] at h0
      exact h0
  constructor
  · have := alt (2 * m) y hy
    rw [pow_mul] at this
    simp at this
    linarith
  · have := alt (2 * m + 1) y hy
    rw [pow_succ, pow_mul] at this
    simp at this
    linarith

/-- Rational bounds of `2/√π`, from the bounds of `π` to 20 decimals. -/
theorem kappa_bounds : 1.128379167095512 ≤ kappa ∧ kappa ≤ 1.128379167095513 := by
  have hlo : (1.77245385090551602 : ℝ) ≤ Real.sqrt Real.pi := by
    apply Real.le_sqrt_of_sq_le
    have := Real.pi_gt_d20
    norm_num at this ⊢
    linarith
  have hhi : Real.sqrt Real.pi ≤ (1.77245385090551603 : ℝ) := by
    rw [Real.sqrt_le_left (by norm_num)]
    have := Real.pi_lt_d20
    norm_num at this ⊢
    linarith
  have hpos : 0 < Real.sqrt Real.pi := Real.sqrt_pos.mpr Real.pi_pos
  unfold kappa
  constructor
  · rw [le_div_iff₀ hpos]
    nlinarith
  · rw [div_le_iff₀ hpos]
    nlinarith

/-- The complementary error function built from the normal distribution function: its value at
`0`, its derivative `-(2/√π)·exp(-u²)`, its sign and its limit at infinity. -/
theorem erfcN_calculus :
    erfcN 0 = 1
      ∧ (∀ u : ℝ, HasDerivAt erfcN (-(kappa * Real.exp (-(u ^ 2)))) u)
      ∧ (∀ u : ℝ, 0 ≤ erfcN u)
      ∧ Filter.Tendsto erfcN Filter.atTop (nhds 0) := by
  obtain ⟨cdf_deriv, cdf_symm⟩ := stdNormalCDF_calculus
  refine ⟨?_, fun u => ?_, fun u => ?_, ?_⟩
  · have := cdf_symm 0
    simp only [neg_zero] at this
    unfold erfcN
    rw [mul_zero]
    linarith
  · have h1 : HasDerivAt (fun u : ℝ => Real.sqrt 2 * u) (Real.sqrt 2) u := by
      simpa using (hasDerivAt_id u).const_mul (Real.sqrt 2)
    have h2 : HasDerivAt (fun u : ℝ => stdNormalCDF (Real.sqrt 2 * u))
        ((Real.sqrt (2 * Real.pi))⁻¹ * Real.exp (-((Real.sqrt 2 * u) ^ 2) / 2) * Real.sqrt 2) u :=
      (cdf_deriv (Real.sqrt 2 * u)).comp u h1
    have h3 := ((hasDerivAt_const u (1 : ℝ)).sub h2).const_mul (2 : ℝ)
    unfold erfcN
    convert h3 using 1
    rw [kappa]
    have hs2 : Real.sqrt 2 ^ 2 = 2 := Real.sq_sqrt (by norm_num)
    have hpi : 0 < Real.pi := Real.pi_pos
    have e1 : -((Real.sqrt 2 * u) ^ 2) / 2 = -(u ^ 2) := by
      rw [mul_pow, hs2]; ring
    rw [e1, Real.sqrt_mul (by norm_num) Real.pi]
    have hsp : Real.sqrt Real.pi ≠ 0 := (Real.sqrt_pos.mpr hpi).ne'
    have hs2' : Real.sqrt 2 ≠ 0 := (Real.sqrt_pos.mpr (by norm_num)).ne'
    field_simp
    ring
  · unfold erfcN stdNormalCDF
    have := cdf_le_one (gaussianReal 0 1) (Real.sqrt 2 * u)
    linarith
  · have h1 : Filter.Tendsto (fun u : ℝ => Real.sqrt 2 * u) Filter.atTop Filter.atTop :=
      Filter.Tendsto.const_mul_atTop (Real.sqrt_pos.mpr (by norm_num)) Filter.tendsto_id
    have h2 : Filter.Tendsto (fun u : ℝ => stdNormalCDF (Real.sqrt 2 * u)) Filter.atTop
        (nhds 1) :=
      (tendsto_cdf_atTop (gaussianReal 0 1)).comp h1
    have h3 : Filter.Tendsto erfcN Filter.atTop (nhds (2 * (1 - 1))) :=
      (tendsto_const_nhds.sub h2).const_mul 2
    simpa using h3

/-- Series enclosure of `erfc` on `[0, ∞)`: with an even number of terms the series gives an
upper bound, with an odd number a lower bound. -/
theorem erfcN_series_bounds (m : Nat) (u : ℝ) (hu : 0 ≤ u) :
    erfcN u ≤ 1 - kappa * erfSum (2 * m) u
      ∧ 1 - kappa * erfSum (2 * m + 1) u ≤ erfcN u := by
  obtain ⟨erfc0, erfc_deriv, _, _⟩ := erfcN_calculus
  have hk : 0 < kappa := lt_of_lt_of_le (by norm_num) kappa_bounds.1
  have sum_deriv : ∀ (n : Nat) (u : ℝ),
      HasDerivAt (fun u : ℝ => erfSum n u) (expSum n (u ^ 2)) u := by
    intro n u
    unfold erfSum expSum
    apply HasDerivAt.sum
    intro k _
    have h1 : HasDerivAt (fun u : ℝ => u ^ (2 * k + 1))
        (((2 * k + 1 : ℕ) : ℝ) * u ^ (2 * k)) u := by
      simpa using hasDerivAt_pow (2 * k + 1) u
    have h2 := (h1.const_mul ((-1 : ℝ) ^ k)).div_const
      ((Nat.factorial k : ℝ) * (2 * (k : ℝ) + 1))
    convert h2 using 1
    have hf : (Nat.factorial k : ℝ) ≠ 0 := by positivity
    have hk : (2 * (k : ℝ) + 1) ≠ 0 := by positivity
    push_cast
    field_simp
    rw [neg_pow, pow_mul]
    ring
  have hd : ∀ (n : Nat) (z : ℝ), HasDerivAt (fun z => erfcN z - 1 + kappa * erfSum n z)
      (-(kappa * (Real.exp (-(z ^ 2)) - expSum n (z ^ 2)))) z := by
    intro n z
    have h := ((erfc_deriv z).sub_const 1).add ((sum_deriv n z).const_mul kappa)
    convert h using 1
    ring
  have e0 : ∀ n : Nat, erfSum n (0 : ℝ) = 0 := by
    intro n
    simp [erfSum]
  constructor
  · have hanti : AntitoneOn (fun z => erfcN z - 1 + kappa * erfSum (2 * m) z) (Set.Ici 0) := by
      apply antitoneOn_of_deriv_nonpos (convex_Ici 0)
      · exact fun z _ => (hd _ z).continuousAt.continuousWithinAt
      · exact fun z _ => (hd _ z).differentiableAt.differentiableWithinAt
      · intro z _
        rw [(hd _ z).deriv]
        have := (exp_series_bounds m (z ^ 2) (sq_nonneg z)).1
        have : 0 ≤ kappa * (Real.exp (-(z ^ 2)) - expSum (2 * m) (z ^ 2)) :=
          mul_nonneg hk.le (by linarith)
        linarith
    have h0 := hanti (Set.mem_Ici.mpr (le_refl (0:ℝ))) (Set.mem_Ici.mpr hu) hu
    simp only [erfc0, e0] at h0
    linarith
  · have hmono : MonotoneOn (fun z => erfcN z - 1 + kappa * erfSum (2 * m + 1) z)
        (Set.Ici 0) := by
      apply monotoneOn_of_deriv_nonneg (convex_Ici 0)
      · exact fun z _ => (hd _ z).continuousAt.continuousWithinAt
      · exact fun z _ => (hd _ z).differentiableAt.differentiableWithinAt
      · intro z _
        rw [(hd _ z).deriv]
        have := (exp_series_bounds m (z ^ 2) (sq_nonneg z)).2
        have : kappa * (Real.exp (-(z ^ 2)) - expSum (2 * m + 1) (z ^ 2)) ≤ 0 :=
          mul_nonpos_of_nonneg_of_nonpos hk.le (by linarith)
        linarith
    have h0 := hmono (Set.mem_Ici.mpr (le_refl (0:ℝ))) (Set.mem_Ici.mpr hu) hu
    simp only [erfc0, e0] at h0
    linarith

/-- The derivative of the error `Gf = erfc - Q` on `[0, ∞)` is
`exp(-u²)·(rhoPoly(t(u)) - 2/√π)`. -/
theorem hasDerivAt_Gf (u : ℝ) (hu : 0 ≤ u) :
    HasDerivAt Gf (Real.exp (-(u ^ 2)) * (rhoPoly (tOf u) - kappa)) u := by
  obtain ⟨_, erfc_deriv, _, _⟩ := erfcN_calculus
  have hw : (0:ℝ) < 1.0 + 0.3275911 * u := by nlinarith
  have ht : HasDerivAt (tOf : ℝ → ℝ) (-(0.3275911 * tOf u ^ 2)) u := by
    have h1 : HasDerivAt (fun u : ℝ => 1.0 + 0.3275911 * u) 0.3275911 u := by
      simpa using ((hasDerivAt_id u).const_mul (0.3275911 : ℝ)).const_add (1.0 : ℝ)
    have h2 := (hasDerivAt_const u (1.0 : ℝ)).div h1 hw.ne'
    unfold tOf
    convert h2 using 1
    field_simp
    ring
  have hQ : HasDerivAt (Qf Real.exp) (-(Real.exp (-(u ^ 2)) * rhoPoly (tOf u))) u := by
    have h1 := (phiPoly_hasDerivAt (tOf u)).comp u ht
    have h2 : HasDerivAt (fun u : ℝ => Real.exp (-u * u)) (Real.exp (-u * u) * (-(2 * u))) u := by
      have h3 : HasDerivAt (fun u : ℝ => -u * u) (-(2 * u)) u := by
        have := ((hasDerivAt_id u).neg).mul (hasDerivAt_id u)
        convert this using 1
        simp
        ring
      exact h3.exp
    have h4 := h1.mul h2
    unfold Qf
    convert h4 using 1
    have e1 : -u * u = -(u ^ 2) := by ring
    rw [e1]
    have e2 : u * tOf u = (1 - tOf u) / 0.3275911 := by
      unfold tOf
      field_simp
      ring
    have e3 : 2 * u * phiPoly (tOf u)
        = 2 / 0.3275911 * (1 - tOf u) * (0.254829592 + (-0.284496736) * tOf u
            + 1.421413741 * tOf u ^ 2 + (-1.453152027) * tOf u ^ 3
            + 1.061405429 * tOf u ^ 4) := by
      have : phiPoly (tOf u) = tOf u * (0.254829592 + (-0.284496736) * tOf u
            + 1.421413741 * tOf u ^ 2 + (-1.453152027) * tOf u ^ 3
            + 1.061405429 * tOf u ^ 4) := by
        simp only [phiPoly]; ring
      rw [this]
      calc 2 * u * (tOf u * (0.254829592 + (-0.284496736) * tOf u
            + 1.421413741 * tOf u ^ 2 + (-1.453152027) * tOf u ^ 3
            + 1.061405429 * tOf u ^ 4))
          = 2 * (u * tOf u) * (0.254829592 + (-0.284496736) * tOf u
            + 1.421413741 * tOf u ^ 2 + (-1.453152027) * tOf u ^ 3
            + 1.061405429 * tOf u ^ 4) := by ring
        _ = _ := by rw [e2]; ring
    unfold rhoPoly
    simp only [Function.comp]
    linear_combination (Real.exp (-(u ^ 2))) * e3
  have h := (erfc_deriv u).sub hQ
  unfold Gf
  convert h using 1
  ring

/-- Variation of the error `Gf` from a point `a ≥ 0` on, given the sign of
`rhoPoly(t(u)) - 2/√π` up to `η`: where that is at least `-η` on `[a,b]` the error is within
`η·(y-x)` of increasing, where it is at most `η` the error is within `η·(y-x)` of decreasing,
and where it is at least `-η` on all of `[a, ∞)` the error stays between its value at `a`
less `η`, and `η`. -/
theorem Gf_variation (a η : ℝ) (ha : 0 ≤ a) (hη : 0 ≤ η) :
    (∀ b : ℝ, (∀ u, a ≤ u → u ≤ b → -η ≤ rhoPoly (tOf u) - kappa) →
        ∀ x y : ℝ, a ≤ x → x ≤ y → y ≤ b → Gf x - η * (y - x) ≤ Gf y)
      ∧ (∀ b : ℝ, (∀ u, a ≤ u → u ≤ b → rhoPoly (tOf u) - kappa ≤ η) →
        ∀ x y : ℝ, a ≤ x → x ≤ y → y ≤ b → Gf y ≤ Gf x + η * (y - x))
      ∧ ((∀ u, a ≤ u → -η ≤ rhoPoly (tOf u) - kappa) →
        ∀ u, a ≤ u → Gf a - η ≤ Gf u ∧ Gf u ≤ η) := by
  have hexp : ∀ u : ℝ, 0 < Real.exp (-(u ^ 2)) ∧ Real.exp (-(u ^ 2)) ≤ 1 := by
    intro u
    refine ⟨Real.exp_pos _, ?_⟩
    rw [Real.exp_le_one_iff]
    nlinarith [sq_nonneg u]
  refine ⟨?_, ?_, ?_⟩
  · intro b hsign x y hax hxy hyb
    have hD : ∀ u ∈ Set.Icc a b,
        HasDerivAt Gf (Real.exp (-(u ^ 2)) * (rhoPoly (tOf u) - kappa)) u :=
      fun u hu => hasDerivAt_Gf u (le_trans ha hu.1)
    have key := Convex.mul_sub_le_image_sub_of_le_deriv (convex_Icc a b)
      (fun u hu => (hD u hu).continuousAt.continuousWithinAt)
      (fun u hu => (hD u (interior_subset hu)).differentiableAt.differentiableWithinAt)
      (C := -η)
      (fun u hu => by
        have hu' := interior_subset hu
        rw [(hD u hu').deriv]
        have h := hsign u hu'.1 hu'.2
        obtain ⟨he0, he1⟩ := hexp u
        nlinarith)
      x ⟨hax, le_trans hxy hyb⟩ y ⟨le_trans hax hxy, hyb⟩ hxy
    linarith
  · intro b hsign x y hax hxy hyb
    have hD : ∀ u ∈ Set.Icc a b,
        HasDerivAt Gf (Real.exp (-(u ^ 2)) * (rhoPoly (tOf u) - kappa)) u :=
      fun u hu => hasDerivAt_Gf u (le_trans ha hu.1)
    have key := Convex.image_sub_le_mul_sub_of_deriv_le (convex_Icc a b)
      (fun u hu => (hD u hu).continuousAt.continuousWithinAt)
      (fun u hu => (hD u (interior_subset hu)).differentiableAt.differentiableWithinAt)
      (C := η)
      (fun u hu => by
        have hu' := interior_subset hu
        rw [(hD u hu').deriv]
        have h := hsign u hu'.1 hu'.2
        obtain ⟨he0, he1⟩ := hexp u
        nlinarith)
      x ⟨hax, le_trans hxy hyb⟩ y ⟨le_trans hax hxy, hyb⟩ hxy
    linarith
  · intro hsign u hu
    obtain ⟨_, erfc_deriv, erfc_nonneg, erfc_lim⟩ := erfcN_calculus
    have hk1 : 1 ≤ kappa := le_trans (by norm_num) kappa_bounds.1
    have hk : 0 < kappa := lt_of_lt_of_le one_pos hk1
    have erfc_le_one : ∀ z : ℝ, 0 ≤ z → erfcN z ≤ 1 := by
      intro z hz
      have := (erfcN_series_bounds 0 z hz).1
      simpa [erfSum] using this
    have Q_nonneg : ∀ z : ℝ, 0 ≤ z → 0 ≤ Qf Real.exp z := by
      intro z hz
      refine mul_nonneg ?_ (Real.exp_pos _).le
      rw [← phiPoly_zero]
      exact phiPoly_strictMono.monotone (phi_t_mem z hz).1.le
    -- the function `Gf - (η/κ)·erfc` is non-decreasing on `[a, ∞)`
    have hD : ∀ z, a ≤ z → HasDerivAt (fun z => Gf z - η / kappa * erfcN z)
        (Real.exp (-(z ^ 2)) * (rhoPoly (tOf z) - kappa + η)) z := by
      intro z hz
      have h := (hasDerivAt_Gf z (le_trans ha hz)).sub ((erfc_deriv z).const_mul (η / kappa))
      convert h using 1
      field_simp
      ring
    have hmono : MonotoneOn (fun z => Gf z - η / kappa * erfcN z) (Set.Ici a) := by
      apply monotoneOn_of_deriv_nonneg (convex_Ici a)
      · exact fun z hz => (hD z hz).continuousAt.continuousWithinAt
      · exact fun z hz => (hD z (interior_subset hz)).differentiableAt.differentiableWithinAt
      · intro z hz
        have hz' : a ≤ z := interior_subset hz
        rw [(hD z hz').deriv]
        have := hsign z hz'
        exact mul_nonneg (Real.exp_pos _).le (by linarith)
    have hc : 0 ≤ η / kappa := div_nonneg hη hk.le
    have hkap1 : ∀ z, 0 ≤ z → η / kappa * erfcN z ≤ η := by
      intro z hz
      have h1 : η / kappa ≤ η := div_le_self hη hk1
      have h2 := erfc_le_one z hz
      have h3 := erfc_nonneg z
      nlinarith
    constructor
    · have h1 := hmono (Set.mem_Ici.mpr (le_refl a)) (Set.mem_Ici.mpr hu) hu
      simp only at h1
      have h2 := mul_nonneg hc (erfc_nonneg u)
      have h3 := hkap1 a ha
      linarith
    · have hu0 : 0 ≤ u := le_trans ha hu
      have hbound : ∀ v, u ≤ v → Gf u ≤ erfcN v + η := by
        intro v hv
        have h1 := hmono (Set.mem_Ici.mpr hu) (Set.mem_Ici.mpr (le_trans hu hv)) hv
        simp only at h1
        have h2 := mul_nonneg hc (erfc_nonneg v)
        have h3 := hkap1 u hu0
        have h4 := Q_nonneg v (le_trans hu0 hv)
        have h5 : Gf v = erfcN v - Qf Real.exp v := rfl
        linarith
      have hlim : Filter.Tendsto (fun v => erfcN v + η) Filter.atTop (nhds (0 + η)) :=
        erfc_lim.add tendsto_const_nhds
      have hev : ∀ᶠ v in Filter.atTop, Gf u ≤ erfcN v + η :=
        Filter.eventually_atTop.mpr ⟨u, hbound⟩
      have := ge_of_tendsto hlim hev
      linarith

/-! ### The error of `phi` as a function of `u = |x|/√2`: sign of its derivative, values at
the turning points, and the bound -/

/-- Sign of `rhoPoly(t(u)) - 2/√π`, up to `10⁻⁸`, on the seven pieces into which the six points
`d₁ < … < d₆` (the zeros of the derivative of the error, to 9 decimals) cut `[0, ∞)`: the
polynomial `rhoPoly t - κ₀` is factored at `t(d₁), …, t(d₆)` with a remainder below `10⁻⁸` on
`[0,1]`, and the product changes sign at each point. -/
theorem rhoPoly_sign :
    (∀ u : ℝ, 0 ≤ u → u ≤ 0.045140616 → -0.00000001 ≤ rhoPoly (tOf u) - kappa)
      ∧ (∀ u : ℝ, 0.045140616 ≤ u → u ≤ 0.222318774 → rhoPoly (tOf u) - kappa ≤ 0.00000001)
      ∧ (∀ u : ℝ, 0.222318774 ≤ u → u ≤ 0.507611637 → -0.00000001 ≤ rhoPoly (tOf u) - kappa)
      ∧ (∀ u : ℝ, 0.507611637 ≤ u → u ≤ 0.895740490 → rhoPoly (tOf u) - kappa ≤ 0.00000001)
      ∧ (∀ u : ℝ, 0.895740490 ≤ u → u ≤ 1.400381717 → -0.00000001 ≤ rhoPoly (tOf u) - kappa)
      ∧ (∀ u : ℝ, 1.400381717 ≤ u → u ≤ 2.130382302 → rhoPoly (tOf u) - kappa ≤ 0.00000001)
      ∧ (∀ u : ℝ, 2.130382302 ≤ u → -0.00000001 ≤ rhoPoly (tOf u) - kappa) := by
  -- The polynomial `rhoPoly t - κ₀` factored at the six points, with a small remainder.
  have rhoPoly_factor : ∀ (t : ℝ),
      rhoPoly t - 1.128379167095512
      = (3477069720320819 / 2000000000000000) * ((t - tOf 0.045140616) * (t - tOf 0.222318774) * (t - tOf 0.507611637) * (t - tOf 0.895740490) * (t - tOf 1.400381717) * (t - tOf 2.130382302))
      + ((-163701349896648032451891634901686872110225240780938815872744076137623424846567456622012688896495347273401 / 5205251422335551571463230075766117485153109285616698498444467836451368734008398014643440891663037007375000000000000) + (67494422379750851756968693341950518224556073450848308497017063899982621668644353530698661628 / 347016761489036771430882005051074499010207285707779899896297855763424582267226534309562726110869133825) * t + (-24950421999694891338977756205793219455608183047993850668151441552417896530532439658883027165577852392713449 / 52052514223355515714632300757661174851531092856166984984444678364513687340083980146434408916630370073750000000000000) * t ^ 2 + (3827056478343817592256931455846581913667439975788825068851068766338314711424315818548096216916221054516273 / 6506564277919439464329037594707646856441386607020873123055584795564210917510497518304301114578796259218750000000000) * t ^ 3 + (-49868251727394950058764402893807918980403599365643608603590530641067427507416883326811884749298190681013991 / 138806704595614708572352802020429799604082914283111959958519142305369832906890613723825090444347653530000000000000000) * t ^ 4 + (1916203507786424971158667783867230278927275687854542324454059115792029758087888067533101344815755389491 / 21930699061872979024492226988692300337700060187978506418556847846856409243768266335131413067887242500000000000000) * t ^ 5) := by
    intro t
    have tOf_d1 :
        tOf (0.045140616 : ℝ) = (1250000000000000 / 1268484580062647) := by
      unfold tOf
      norm_num
    have tOf_d2 :
        tOf (0.222318774 : ℝ) = (5000000000000000 / 5364148258626557) := by
      unfold tOf
      norm_num
    have tOf_d3 :
        tOf (0.507611637 : ℝ) = (10000000000000000 / 11662890545376307) := by
      unfold tOf
      norm_num
    have tOf_d4 :
        tOf (0.895740490 : ℝ) = (1000000000000000 / 1293436612433639) := by
      unfold tOf
      norm_num
    have tOf_d5 :
        tOf (1.400381717 : ℝ) = (10000000000000000 / 14587525870919187) := by
      unfold tOf
      norm_num
    have tOf_d6 :
        tOf (2.130382302 : ℝ) = (5000000000000000 / 8489471408663561) := by
      unfold tOf
      norm_num
    rw [tOf_d1, tOf_d2, tOf_d3, tOf_d4, tOf_d5, tOf_d6]
    unfold rhoPoly
    ring
  -- On `[0,1]` the polynomial `rhoPoly t - 2/√π` differs from its factored form by less than
  -- `0.00000001`.
  have rhoPoly_near_product : ∀ (t : ℝ) (h0 : 0 ≤ t) (h1 : t ≤ 1),
      -0.00000001 ≤ rhoPoly t - kappa - (3477069720320819 / 2000000000000000) * ((t - tOf 0.045140616) * (t - tOf 0.222318774) * (t - tOf 0.507611637) * (t - tOf 0.895740490) * (t - tOf 1.400381717) * (t - tOf 2.130382302))
      ∧ rhoPoly t - kappa - (3477069720320819 / 2000000000000000) * ((t - tOf 0.045140616) * (t - tOf 0.222318774) * (t - tOf 0.507611637) * (t - tOf 0.895740490) * (t - tOf 1.400381717) * (t - tOf 2.130382302)) ≤ 0.00000001 := by
    intro t h0 h1
    have hf := rhoPoly_factor t
    obtain ⟨hk1, hk2⟩ := kappa_bounds
    have p2 : 0 ≤ t ^ 2 := by positivity
    have p3 : 0 ≤ t ^ 3 := by positivity
    have p4 : 0 ≤ t ^ 4 := by positivity
    have p5 : 0 ≤ t ^ 5 := by positivity
    have q2 : t ^ 2 ≤ 1 := pow_le_one₀ h0 h1
    have q3 : t ^ 3 ≤ 1 := pow_le_one₀ h0 h1
    have q4 : t ^ 4 ≤ 1 := pow_le_one₀ h0 h1
    have q5 : t ^ 5 ≤ 1 := pow_le_one₀ h0 h1
    generalize (3477069720320819 / 2000000000000000) * ((t - tOf 0.045140616) * (t - tOf 0.222318774) * (t - tOf 0.507611637) * (t - tOf 0.895740490) * (t - tOf 1.400381717) * (t - tOf 2.130382302)) = X at hf ⊢
    generalize rhoPoly t = Y at hf ⊢
    generalize t ^ 2 = t2 at hf p2 q2
    generalize t ^ 3 = t3 at hf p3 q3
    generalize t ^ 4 = t4 at hf p4 q4
    generalize t ^ 5 = t5 at hf p5 q5
    constructor <;> linarith
  have prod_six_sign_0 : ∀ (t a1 a2 a3 a4 a5 a6 : ℝ) (h12 : a2 ≤ a1) (h23 : a3 ≤ a2) (h34 : a4 ≤ a3) (h45 : a5 ≤ a4) (h56 : a6 ≤ a5) (hl : a1 ≤ t),
      0 ≤ (t - a1) * (t - a2) * (t - a3) * (t - a4) * (t - a5) * (t - a6) := by
    intro t a1 a2 a3 a4 a5 a6 h12 h23 h34 h45 h56 hl
    have f0 : 0 ≤ (t - a1) := by linarith
    have f1 : 0 ≤ (t - a2) := by linarith
    have f2 : 0 ≤ (t - a3) := by linarith
    have f3 : 0 ≤ (t - a4) := by linarith
    have f4 : 0 ≤ (t - a5) := by linarith
    have f5 : 0 ≤ (t - a6) := by linarith
    have hp : 0 ≤ (t - a1) * (t - a2) * (t - a3) * (t - a4) * (t - a5) * (t - a6) :=
      (mul_nonneg (mul_nonneg (mul_nonneg (mul_nonneg (mul_nonneg f0 f1) f2) f3) f4) f5)
    have hc : (t - a1) * (t - a2) * (t - a3) * (t - a4) * (t - a5) * (t - a6)
        = ((t - a1) * (t - a2) * (t - a3) * (t - a4) * (t - a5) * (t - a6)) := by ring
    rw [hc]
    linarith
  have prod_six_sign_1 : ∀ (t a1 a2 a3 a4 a5 a6 : ℝ) (_h12 : a2 ≤ a1) (h23 : a3 ≤ a2) (h34 : a4 ≤ a3) (h45 : a5 ≤ a4) (h56 : a6 ≤ a5) (hu : t ≤ a1) (hl : a2 ≤ t),
      (t - a1) * (t - a2) * (t - a3) * (t - a4) * (t - a5) * (t - a6) ≤ 0 := by
    intro t a1 a2 a3 a4 a5 a6 _h12 h23 h34 h45 h56 hu hl
    have f0 : 0 ≤ (a1 - t) := by linarith
    have f1 : 0 ≤ (t - a2) := by linarith
    have f2 : 0 ≤ (t - a3) := by linarith
    have f3 : 0 ≤ (t - a4) := by linarith
    have f4 : 0 ≤ (t - a5) := by linarith
    have f5 : 0 ≤ (t - a6) := by linarith
    have hp : 0 ≤ (a1 - t) * (t - a2) * (t - a3) * (t - a4) * (t - a5) * (t - a6) :=
      (mul_nonneg (mul_nonneg (mul_nonneg (mul_nonneg (mul_nonneg f0 f1) f2) f3) f4) f5)
    have hc : (t - a1) * (t - a2) * (t - a3) * (t - a4) * (t - a5) * (t - a6)
        = -((a1 - t) * (t - a2) * (t - a3) * (t - a4) * (t - a5) * (t - a6)) := by ring
    rw [hc]
    linarith
  have prod_six_sign_2 : ∀ (t a1 a2 a3 a4 a5 a6 : ℝ) (h12 : a2 ≤ a1) (_h23 : a3 ≤ a2) (h34 : a4 ≤ a3) (h45 : a5 ≤ a4) (h56 : a6 ≤ a5) (hu : t ≤ a2) (hl : a3 ≤ t),
      0 ≤ (t - a1) * (t - a2) * (t - a3) * (t - a4) * (t - a5) * (t - a6) := by
    intro t a1 a2 a3 a4 a5 a6 h12 _h23 h34 h45 h56 hu hl
    have f0 : 0 ≤ (a1 - t) := by linarith
    have f1 : 0 ≤ (a2 - t) := by linarith
    have f2 : 0 ≤ (t - a3) := by linarith
    have f3 : 0 ≤ (t - a4) := by linarith
    have f4 : 0 ≤ (t - a5) := by linarith
    have f5 : 0 ≤ (t - a6) := by linarith
    have hp : 0 ≤ (a1 - t) * (a2 - t) * (t - a3) * (t - a4) * (t - a5) * (t - a6) :=
      (mul_nonneg (mul_nonneg (mul_nonneg (mul_nonneg (mul_nonneg f0 f1) f2) f3) f4) f5)
    have hc : (t - a1) * (t - a2) * (t - a3) * (t - a4) * (t - a5) * (t - a6)
        = ((a1 - t) * (a2 - t) * (t - a3) * (t - a4) * (t - a5) * (t - a6)) := by ring
    rw [hc]
    linarith
  have prod_six_sign_3 : ∀ (t a1 a2 a3 a4 a5 a6 : ℝ) (h12 : a2 ≤ a1) (h23 : a3 ≤ a2) (_h34 : a4 ≤ a3) (h45 : a5 ≤ a4) (h56 : a6 ≤ a5) (hu : t ≤ a3) (hl : a4 ≤ t),
      (t - a1) * (t - a2) * (t - a3) * (t - a4) * (t - a5) * (t - a6) ≤ 0 := by
    intro t a1 a2 a3 a4 a5 a6 h12 h23 _h34 h45 h56 hu hl
    have f0 : 0 ≤ (a1 - t) := by linarith
    have f1 : 0 ≤ (a2 - t) := by linarith
    have f2 : 0 ≤ (a3 - t) := by linarith
    have f3 : 0 ≤ (t - a4) := by linarith
    have f4 : 0 ≤ (t - a5) := by linarith
    have f5 : 0 ≤ (t - a6) := by linarith
    have hp : 0 ≤ (a1 - t) * (a2 - t) * (a3 - t) * (t - a4) * (t - a5) * (t - a6) :=
      (mul_nonneg (mul_nonneg (mul_nonneg (mul_nonneg (mul_nonneg f0 f1) f2) f3) f4) f5)
    have hc : (t - a1) * (t - a2) * (t - a3) * (t - a4) * (t - a5) * (t - a6)
        = -((a1 - t) * (a2 - t) * (a3 - t) * (t - a4) * (t - a5) * (t - a6)) := by ring
    rw [hc]
    linarith
  have prod_six_sign_4 : ∀ (t a1 a2 a3 a4 a5 a6 : ℝ) (h12 : a2 ≤ a1) (h23 : a3 ≤ a2) (h34 : a4 ≤ a3) (_h45 : a5 ≤ a4) (h56 : a6 ≤ a5) (hu : t ≤ a4) (hl : a5 ≤ t),
      0 ≤ (t - a1) * (t - a2) * (t - a3) * (t - a4) * (t - a5) * (t - a6) := by
    intro t a1 a2 a3 a4 a5 a6 h12 h23 h34 _h45 h56 hu hl
    have f0 : 0 ≤ (a1 - t) := by linarith
    have f1 : 0 ≤ (a2 - t) := by linarith
    have f2 : 0 ≤ (a3 - t) := by linarith
    have f3 : 0 ≤ (a4 - t) := by linarith
    have f4 : 0 ≤ (t - a5) := by linarith
    have f5 : 0 ≤ (t - a6) := by linarith
    have hp : 0 ≤ (a1 - t) * (a2 - t) * (a3 - t) * (a4 - t) * (t - a5) * (t - a6) :=
      (mul_nonneg (mul_nonneg (mul_nonneg (mul_nonneg (mul_nonneg f0 f1) f2) f3) f4) f5)
    have hc : (t - a1) * (t - a2) * (t - a3) * (t - a4) * (t - a5) * (t - a6)
        = ((a1 - t) * (a2 - t) * (a3 - t) * (a4 - t) * (t - a5) * (t - a6)) := by ring
    rw [hc]
    linarith
  have prod_six_sign_5 : ∀ (t a1 a2 a3 a4 a5 a6 : ℝ) (h12 : a2 ≤ a1) (h23 : a3 ≤ a2) (h34 : a4 ≤ a3) (h45 : a5 ≤ a4) (_h56 : a6 ≤ a5) (hu : t ≤ a5) (hl : a6 ≤ t),
      (t - a1) * (t - a2) * (t - a3) * (t - a4) * (t - a5) * (t - a6) ≤ 0 := by
    intro t a1 a2 a3 a4 a5 a6 h12 h23 h34 h45 _h56 hu hl
    have f0 : 0 ≤ (a1 - t) := by linarith
    have f1 : 0 ≤ (a2 - t) := by linarith
    have f2 : 0 ≤ (a3 - t) := by linarith
    have f3 : 0 ≤ (a4 - t) := by linarith
    have f4 : 0 ≤ (a5 - t) := by linarith
    have f5 : 0 ≤ (t - a6) := by linarith
    have hp : 0 ≤ (a1 - t) * (a2 - t) * (a3 - t) * (a4 - t) * (a5 - t) * (t - a6) :=
      (mul_nonneg (mul_nonneg (mul_nonneg (mul_nonneg (mul_nonneg f0 f1) f2) f3) f4) f5)
    have hc : (t - a1) * (t - a2) * (t - a3) * (t - a4) * (t - a5) * (t - a6)
        = -((a1 - t) * (a2 - t) * (a3 - t) * (a4 - t) * (a5 - t) * (t - a6)) := by ring
    rw [hc]
    linarith
  have prod_six_sign_6 : ∀ (t a1 a2 a3 a4 a5 a6 : ℝ) (h12 : a2 ≤ a1) (h23 : a3 ≤ a2) (h34 : a4 ≤ a3) (h45 : a5 ≤ a4) (h56 : a6 ≤ a5) (hu : t ≤ a6),
      0 ≤ (t - a1) * (t - a2) * (t - a3) * (t - a4) * (t - a5) * (t - a6) := by
    intro t a1 a2 a3 a4 a5 a6 h12 h23 h34 h45 h56 hu
    have f0 : 0 ≤ (a1 - t) := by linarith
    have f1 : 0 ≤ (a2 - t) := by linarith
    have f2 : 0 ≤ (a3 - t) := by linarith
    have f3 : 0 ≤ (a4 - t) := by linarith
    have f4 : 0 ≤ (a5 - t) := by linarith
    have f5 : 0 ≤ (a6 - t) := by linarith
    have hp : 0 ≤ (a1 - t) * (a2 - t) * (a3 - t) * (a4 - t) * (a5 - t) * (a6 - t) :=
      (mul_nonneg (mul_nonneg (mul_nonneg (mul_nonneg (mul_nonneg f0 f1) f2) f3) f4) f5)
    have hc : (t - a1) * (t - a2) * (t - a3) * (t - a4) * (t - a5) * (t - a6)
        = ((a1 - t) * (a2 - t) * (a3 - t) * (a4 - t) * (a5 - t) * (a6 - t)) := by ring
    rw [hc]
    linarith
  -- The six points in `t` are ordered: `tOf` is decreasing.
  have tOf_points_ordered :
      tOf (0.222318774 : ℝ) ≤ tOf 0.045140616 ∧ tOf (0.507611637 : ℝ) ≤ tOf 0.222318774 ∧ tOf (0.895740490 : ℝ) ≤ tOf 0.507611637
      ∧ tOf (1.400381717 : ℝ) ≤ tOf 0.895740490 ∧ tOf (2.130382302 : ℝ) ≤ tOf 1.400381717 :=
    ⟨phi_t_anti _ _ (by norm_num) (by norm_num), phi_t_anti _ _ (by norm_num) (by norm_num),
      phi_t_anti _ _ (by norm_num) (by norm_num), phi_t_anti _ _ (by norm_num) (by norm_num),
      phi_t_anti _ _ (by norm_num) (by norm_num)⟩
  -- Sign of `rhoPoly t - 2/√π`, up to `0.00000001`, on the piece number 0 of `[0, ∞)`.
  have rho_sign_u0 : ∀ (u : ℝ) (h0 : 0 ≤ u) (h1 : u ≤ 0.045140616),
      -0.00000001 ≤ rhoPoly (tOf u) - kappa := by
    intro u h0 h1
    have hu : (0 : ℝ) ≤ u := by linarith
    obtain ⟨o12, o23, o34, o45, o56⟩ := tOf_points_ordered
    obtain ⟨hn1, hn2⟩ := rhoPoly_near_product (tOf u) (phi_t_mem u hu).1.le (phi_t_mem u hu).2
    have hlo : tOf (0.045140616 : ℝ) ≤ tOf u := phi_t_anti u _ hu h1
    have hs := prod_six_sign_0 (tOf u) (tOf 0.045140616) (tOf 0.222318774) (tOf 0.507611637) (tOf 0.895740490)
      (tOf 1.400381717) (tOf 2.130382302) o12 o23 o34 o45 o56 hlo
    generalize (tOf u - tOf 0.045140616) * (tOf u - tOf 0.222318774) * (tOf u - tOf 0.507611637) * (tOf u - tOf 0.895740490) * (tOf u - tOf 1.400381717) * (tOf u - tOf 2.130382302) = X at hs hn1 hn2
    nlinarith
  -- Sign of `rhoPoly t - 2/√π`, up to `0.00000001`, on the piece number 1 of `[0, ∞)`.
  have rho_sign_u1 : ∀ (u : ℝ) (h0 : 0.045140616 ≤ u) (h1 : u ≤ 0.222318774),
      rhoPoly (tOf u) - kappa ≤ 0.00000001 := by
    intro u h0 h1
    have hu : (0 : ℝ) ≤ u := by linarith
    obtain ⟨o12, o23, o34, o45, o56⟩ := tOf_points_ordered
    obtain ⟨hn1, hn2⟩ := rhoPoly_near_product (tOf u) (phi_t_mem u hu).1.le (phi_t_mem u hu).2
    have hhi : tOf u ≤ tOf (0.045140616 : ℝ) := phi_t_anti _ u (by norm_num) h0
    have hlo : tOf (0.222318774 : ℝ) ≤ tOf u := phi_t_anti u _ hu h1
    have hs := prod_six_sign_1 (tOf u) (tOf 0.045140616) (tOf 0.222318774) (tOf 0.507611637) (tOf 0.895740490)
      (tOf 1.400381717) (tOf 2.130382302) o12 o23 o34 o45 o56 hhi hlo
    generalize (tOf u - tOf 0.045140616) * (tOf u - tOf 0.222318774) * (tOf u - tOf 0.507611637) * (tOf u - tOf 0.895740490) * (tOf u - tOf 1.400381717) * (tOf u - tOf 2.130382302) = X at hs hn1 hn2
    nlinarith
  -- Sign of `rhoPoly t - 2/√π`, up to `0.00000001`, on the piece number 2 of `[0, ∞)`.
  have rho_sign_u2 : ∀ (u : ℝ) (h0 : 0.222318774 ≤ u) (h1 : u ≤ 0.507611637),
      -0.00000001 ≤ rhoPoly (tOf u) - kappa := by
    intro u h0 h1
    have hu : (0 : ℝ) ≤ u := by linarith
    obtain ⟨o12, o23, o34, o45, o56⟩ := tOf_points_ordered
    obtain ⟨hn1, hn2⟩ := rhoPoly_near_product (tOf u) (phi_t_mem u hu).1.le (phi_t_mem u hu).2
    have hhi : tOf u ≤ tOf (0.222318774 : ℝ) := phi_t_anti _ u (by norm_num) h0
    have hlo : tOf (0.507611637 : ℝ) ≤ tOf u := phi_t_anti u _ hu h1
    have hs := prod_six_sign_2 (tOf u) (tOf 0.045140616) (tOf 0.222318774) (tOf 0.507611637) (tOf 0.895740490)
      (tOf 1.400381717) (tOf 2.130382302) o12 o23 o34 o45 o56 hhi hlo
    generalize (tOf u - tOf 0.045140616) * (tOf u - tOf 0.222318774) * (tOf u - tOf 0.507611637) * (tOf u - tOf 0.895740490) * (tOf u - tOf 1.400381717) * (tOf u - tOf 2.130382302) = X at hs hn1 hn2
    nlinarith
  -- Sign of `rhoPoly t - 2/√π`, up to `0.00000001`, on the piece number 3 of `[0, ∞)`.
  have rho_sign_u3 : ∀ (u : ℝ) (h0 : 0.507611637 ≤ u) (h1 : u ≤ 0.895740490),
      rhoPoly (tOf u) - kappa ≤ 0.00000001 := by
    intro u h0 h1
    have hu : (0 : ℝ) ≤ u := by linarith
    obtain ⟨o12, o23, o34, o45, o56⟩ := tOf_points_ordered
    obtain ⟨hn1, hn2⟩ := rhoPoly_near_product (tOf u) (phi_t_mem u hu).1.le (phi_t_mem u hu).2
    have hhi : tOf u ≤ tOf (0.507611637 : ℝ) := phi_t_anti _ u (by norm_num) h0
    have hlo : tOf (0.895740490 : ℝ) ≤ tOf u := phi_t_anti u _ hu h1
    have hs := prod_six_sign_3 (tOf u) (tOf 0.045140616) (tOf 0.222318774) (tOf 0.507611637) (tOf 0.895740490)
      (tOf 1.400381717) (tOf 2.130382302) o12 o23 o34 o45 o56 hhi hlo
    generalize (tOf u - tOf 0.045140616) * (tOf u - tOf 0.222318774) * (tOf u - tOf 0.507611637) * (tOf u - tOf 0.895740490) * (tOf u - tOf 1.400381717) * (tOf u - tOf 2.130382302) = X at hs hn1 hn2
    nlinarith
  -- Sign of `rhoPoly t - 2/√π`, up to `0.00000001`, on the piece number 4 of `[0, ∞)`.
  have rho_sign_u4 : ∀ (u : ℝ) (h0 : 0.895740490 ≤ u) (h1 : u ≤ 1.400381717),
      -0.00000001 ≤ rhoPoly (tOf u) - kappa := by
    intro u h0 h1
    have hu : (0 : ℝ) ≤ u := by linarith
    obtain ⟨o12, o23, o34, o45, o56⟩ := tOf_points_ordered
    obtain ⟨hn1, hn2⟩ := rhoPoly_near_product (tOf u) (phi_t_mem u hu).1.le (phi_t_mem u hu).2
    have hhi : tOf u ≤ tOf (0.895740490 : ℝ) := phi_t_anti _ u (by norm_num) h0
    have hlo : tOf (1.400381717 : ℝ) ≤ tOf u := phi_t_anti u _ hu h1
    have hs := prod_six_sign_4 (tOf u) (tOf 0.045140616) (tOf 0.222318774) (tOf 0.507611637) (tOf 0.895740490)
      (tOf 1.400381717) (tOf 2.130382302) o12 o23 o34 o45 o56 hhi hlo
    generalize (tOf u - tOf 0.045140616) * (tOf u - tOf 0.222318774) * (tOf u - tOf 0.507611637) * (tOf u - tOf 0.895740490) * (tOf u - tOf 1.400381717) * (tOf u - tOf 2.130382302) = X at hs hn1 hn2
    nlinarith
  -- Sign of `rhoPoly t - 2/√π`, up to `0.00000001`, on the piece number 5 of `[0, ∞)`.
  have rho_sign_u5 : ∀ (u : ℝ) (h0 : 1.400381717 ≤ u) (h1 : u ≤ 2.130382302),
      rhoPoly (tOf u) - kappa ≤ 0.00000001 := by
    intro u h0 h1
    have hu : (0 : ℝ) ≤ u := by linarith
    obtain ⟨o12, o23, o34, o45, o56⟩ := tOf_points_ordered
    obtain ⟨hn1, hn2⟩ := rhoPoly_near_product (tOf u) (phi_t_mem u hu).1.le (phi_t_mem u hu).2
    have hhi : tOf u ≤ tOf (1.400381717 : ℝ) := phi_t_anti _ u (by norm_num) h0
    have hlo : tOf (2.130382302 : ℝ) ≤ tOf u := phi_t_anti u _ hu h1
    have hs := prod_six_sign_5 (tOf u) (tOf 0.045140616) (tOf 0.222318774) (tOf 0.507611637) (tOf 0.895740490)
      (tOf 1.400381717) (tOf 2.130382302) o12 o23 o34 o45 o56 hhi hlo
    generalize (tOf u - tOf 0.045140616) * (tOf u - tOf 0.222318774) * (tOf u - tOf 0.507611637) * (tOf u - tOf 0.895740490) * (tOf u - tOf 1.400381717) * (tOf u - tOf 2.130382302) = X at hs hn1 hn2
    nlinarith
  -- Sign of `rhoPoly t - 2/√π`, up to `0.00000001`, on the piece number 6 of `[0, ∞)`.
  have rho_sign_u6 : ∀ (u : ℝ) (h0 : 2.130382302 ≤ u),
      -0.00000001 ≤ rhoPoly (tOf u) - kappa := by
    intro u h0
    have hu : (0 : ℝ) ≤ u := by linarith
    obtain ⟨o12, o23, o34, o45, o56⟩ := tOf_points_ordered
    obtain ⟨hn1, hn2⟩ := rhoPoly_near_product (tOf u) (phi_t_mem u hu).1.le (phi_t_mem u hu).2
    have hhi : tOf u ≤ tOf (2.130382302 : ℝ) := phi_t_anti _ u (by norm_num) h0
    have hs := prod_six_sign_6 (tOf u) (tOf 0.045140616) (tOf 0.222318774) (tOf 0.507611637) (tOf 0.895740490)
      (tOf 1.400381717) (tOf 2.130382302) o12 o23 o34 o45 o56 hhi
    generalize (tOf u - tOf 0.045140616) * (tOf u - tOf 0.222318774) * (tOf u - tOf 0.507611637) * (tOf u - tOf 0.895740490) * (tOf u - tOf 1.400381717) * (tOf u - tOf 2.130382302) = X at hs hn1 hn2
    nlinarith
  exact ⟨rho_sign_u0, rho_sign_u1, rho_sign_u2, rho_sign_u3, rho_sign_u4, rho_sign_u5, rho_sign_u6⟩

/-- The error `Gf = erfc - Q` at `0` and at the six points `d₁ < … < d₆`: it is below
`2.5·10⁻⁷` at the local maxima and above `-2.5·10⁻⁷` at the local minima, by the series
enclosures of `erfc` and `exp`. -/
theorem Gf_checkpoints :
    Gf 0 = 0.000000001
      ∧ Gf 0.045140616 ≤ 0.00000025
      ∧ -0.00000025 ≤ Gf 0.222318774
      ∧ Gf 0.507611637 ≤ 0.00000025
      ∧ -0.00000025 ≤ Gf 0.895740490
      ∧ Gf 1.400381717 ≤ 0.00000025
      ∧ -0.00000025 ≤ Gf 2.130382302 := by
  obtain ⟨erfcN_zero, _, _, _⟩ := erfcN_calculus
  have kappa_pos : 0 < kappa := lt_of_lt_of_le (by norm_num) kappa_bounds.1
  have erfcN_le_one : ∀ z : ℝ, 0 ≤ z → erfcN z ≤ 1 := by
    intro z hz
    have := (erfcN_series_bounds 0 z hz).1
    simpa [erfSum] using this
  have phiPoly_tOf_nonneg : ∀ z : ℝ, 0 ≤ z → 0 ≤ phiPoly (tOf z) := by
    intro z hz
    rw [← phiPoly_zero]
    exact phiPoly_strictMono.monotone (phi_t_mem z hz).1.le
  refine ⟨?_, ?_, ?_, ?_, ?_, ?_, ?_⟩
  · simp only [Gf, erfcN_zero, Qf, tOf, phiPoly]
    norm_num
  -- The error at the local maximum near `u = 0.045140616`.
  · have tOf_d1 :
        tOf (0.045140616 : ℝ) = (1250000000000000 / 1268484580062647) := by
      unfold tOf
      norm_num
    have hd : (0 : ℝ) ≤ 0.045140616 := by norm_num
    have h1 := (erfcN_series_bounds 1 (0.045140616 : ℝ) hd).1
    have h2 := (exp_series_bounds 2 ((0.045140616 : ℝ) * 0.045140616) (by norm_num)).1
    have hs1 : (0.0451099553618 : ℝ) ≤ erfSum (2 * 1) (0.045140616 : ℝ) := by
      simp only [erfSum, Finset.sum_range_succ, Finset.sum_range_zero]
      norm_num [Nat.factorial]
    have hs2 : (0.9979643994371 : ℝ) ≤ expSum (2 * 2) ((0.045140616 : ℝ) * 0.045140616) := by
      simp only [expSum, Finset.sum_range_succ, Finset.sum_range_zero]
      norm_num [Nat.factorial]
    have hp : (0.9510346322587 : ℝ) ≤ phiPoly (tOf (0.045140616 : ℝ)) := by
      rw [tOf_d1]
      norm_num [phiPoly]
    obtain ⟨hk1, _⟩ := kappa_bounds
    have e1 : Real.exp (-(0.045140616 : ℝ) * 0.045140616) = Real.exp (-((0.045140616 : ℝ) * 0.045140616)) := by
      rw [neg_mul]
    have hq : (0.9510346322587 : ℝ) * 0.9979643994371 ≤ Qf Real.exp 0.045140616 := by
      unfold Qf
      rw [e1]
      exact mul_le_mul hp (le_trans hs2 h2) (by norm_num) (le_trans (by norm_num) hp)
    have hk : (1.128379167095512 : ℝ) * 0.0451099553618 ≤ kappa * erfSum (2 * 1) (0.045140616 : ℝ) :=
      mul_le_mul hk1 hs1 (by norm_num) (le_trans (by norm_num) hk1)
    unfold Gf
    linarith
  -- The error at the local minimum near `u = 0.222318774`.
  · have tOf_d2 :
        tOf (0.222318774 : ℝ) = (5000000000000000 / 5364148258626557) := by
      unfold tOf
      norm_num
    have hd : (0 : ℝ) ≤ 0.222318774 := by norm_num
    have h1 := (erfcN_series_bounds 2 (0.222318774 : ℝ) hd).2
    have h2 := (exp_series_bounds 2 ((0.222318774 : ℝ) * 0.222318774) (by norm_num)).2
    have hs1 : erfSum (2 * 2 + 1) (0.222318774 : ℝ) ≤ (0.2187097021044 : ℝ) := by
      simp only [erfSum, Finset.sum_range_succ, Finset.sum_range_zero]
      norm_num [Nat.factorial]
    have hs2 : expSum (2 * 2 + 1) ((0.222318774 : ℝ) * 0.222318774) ≤ (0.9517759345968 : ℝ) := by
      simp only [expSum, Finset.sum_range_succ, Finset.sum_range_zero]
      norm_num [Nat.factorial]
    have hp : phiPoly (tOf (0.222318774 : ℝ)) ≤ (0.7913760381951 : ℝ) := by
      rw [tOf_d2]
      norm_num [phiPoly]
    have hp0 : 0 ≤ phiPoly (tOf (0.222318774 : ℝ)) := phiPoly_tOf_nonneg _ hd
    obtain ⟨hk0, hk2⟩ := kappa_bounds
    have e1 : Real.exp (-(0.222318774 : ℝ) * 0.222318774) = Real.exp (-((0.222318774 : ℝ) * 0.222318774)) := by
      rw [neg_mul]
    have hq : Qf Real.exp 0.222318774 ≤ (0.7913760381951 : ℝ) * 0.9517759345968 := by
      unfold Qf
      rw [e1]
      exact mul_le_mul hp (le_trans h2 hs2) (Real.exp_pos _).le (by norm_num)
    have hs0 : 0 ≤ erfSum (2 * 2 + 1) (0.222318774 : ℝ) := by
      have := erfcN_le_one (0.222318774 : ℝ) hd
      have hkp := kappa_pos
      by_contra hneg
      push_neg at hneg
      have : kappa * erfSum (2 * 2 + 1) (0.222318774 : ℝ) < 0 := mul_neg_of_pos_of_neg hkp hneg
      linarith
    have hk : kappa * erfSum (2 * 2 + 1) (0.222318774 : ℝ) ≤ (1.128379167095513 : ℝ) * 0.2187097021044 :=
      mul_le_mul hk2 hs1 hs0 (by norm_num)
    unfold Gf
    linarith
  -- The error at the local maximum near `u = 0.507611637`.
  · have tOf_d3 :
        tOf (0.507611637 : ℝ) = (10000000000000000 / 11662890545376307) := by
      unfold tOf
      norm_num
    have hd : (0 : ℝ) ≤ 0.507611637 := by norm_num
    have h1 := (erfcN_series_bounds 3 (0.507611637 : ℝ) hd).1
    have h2 := (exp_series_bounds 4 ((0.507611637 : ℝ) * 0.507611637) (by norm_num)).1
    have hs1 : (0.4671863224951 : ℝ) ≤ erfSum (2 * 3) (0.507611637 : ℝ) := by
      simp only [erfSum, Finset.sum_range_succ, Finset.sum_range_zero]
      norm_num [Nat.factorial]
    have hs2 : (0.7728505593579 : ℝ) ≤ expSum (2 * 4) ((0.507611637 : ℝ) * 0.507611637) := by
      simp only [expSum, Finset.sum_range_succ, Finset.sum_range_zero]
      norm_num [Nat.factorial]
    have hp : (0.6118084852702 : ℝ) ≤ phiPoly (tOf (0.507611637 : ℝ)) := by
      rw [tOf_d3]
      norm_num [phiPoly]
    obtain ⟨hk1, _⟩ := kappa_bounds
    have e1 : Real.exp (-(0.507611637 : ℝ) * 0.507611637) = Real.exp (-((0.507611637 : ℝ) * 0.507611637)) := by
      rw [neg_mul]
    have hq : (0.6118084852702 : ℝ) * 0.7728505593579 ≤ Qf Real.exp 0.507611637 := by
      unfold Qf
      rw [e1]
      exact mul_le_mul hp (le_trans hs2 h2) (by norm_num) (le_trans (by norm_num) hp)
    have hk : (1.128379167095512 : ℝ) * 0.4671863224951 ≤ kappa * erfSum (2 * 3) (0.507611637 : ℝ) :=
      mul_le_mul hk1 hs1 (by norm_num) (le_trans (by norm_num) hk1)
    unfold Gf
    linarith
  -- The error at the local minimum near `u = 0.895740490`.
  · have tOf_d4 :
        tOf (0.895740490 : ℝ) = (1000000000000000 / 1293436612433639) := by
      unfold tOf
      norm_num
    have hd : (0 : ℝ) ≤ 0.895740490 := by norm_num
    have h1 := (erfcN_series_bounds 4 (0.895740490 : ℝ) hd).2
    have h2 := (exp_series_bounds 5 ((0.895740490 : ℝ) * 0.895740490) (by norm_num)).2
    have hs1 : erfSum (2 * 4 + 1) (0.895740490 : ℝ) ≤ (0.7043393830686 : ℝ) := by
      simp only [erfSum, Finset.sum_range_succ, Finset.sum_range_zero]
      norm_num [Nat.factorial]
    have hs2 : expSum (2 * 5 + 1) ((0.895740490 : ℝ) * 0.895740490) ≤ (0.4482738232009 : ℝ) := by
      simp only [expSum, Finset.sum_range_succ, Finset.sum_range_zero]
      norm_num [Nat.factorial]
    have hp : phiPoly (tOf (0.895740490 : ℝ)) ≤ (0.4578413021507 : ℝ) := by
      rw [tOf_d4]
      norm_num [phiPoly]
    have hp0 : 0 ≤ phiPoly (tOf (0.895740490 : ℝ)) := phiPoly_tOf_nonneg _ hd
    obtain ⟨hk0, hk2⟩ := kappa_bounds
    have e1 : Real.exp (-(0.895740490 : ℝ) * 0.895740490) = Real.exp (-((0.895740490 : ℝ) * 0.895740490)) := by
      rw [neg_mul]
    have hq : Qf Real.exp 0.895740490 ≤ (0.4578413021507 : ℝ) * 0.4482738232009 := by
      unfold Qf
      rw [e1]
      exact mul_le_mul hp (le_trans h2 hs2) (Real.exp_pos _).le (by norm_num)
    have hs0 : 0 ≤ erfSum (2 * 4 + 1) (0.895740490 : ℝ) := by
      have := erfcN_le_one (0.895740490 : ℝ) hd
      have hkp := kappa_pos
      by_contra hneg
      push_neg at hneg
      have : kappa * erfSum (2 * 4 + 1) (0.895740490 : ℝ) < 0 := mul_neg_of_pos_of_neg hkp hneg
      linarith
    have hk : kappa * erfSum (2 * 4 + 1) (0.895740490 : ℝ) ≤ (1.128379167095513 : ℝ) * 0.7043393830686 :=
      mul_le_mul hk2 hs1 hs0 (by norm_num)
    unfold Gf
    linarith
  -- The error at the local maximum near `u = 1.400381717`.
  · have tOf_d5 :
        tOf (1.400381717 : ℝ) = (10000000000000000 / 14587525870919187) := by
      unfold tOf
      norm_num
    have hd : (0 : ℝ) ≤ 1.400381717 := by norm_num
    have h1 := (erfcN_series_bounds 7 (1.400381717 : ℝ) hd).1
    have h2 := (exp_series_bounds 7 ((1.400381717 : ℝ) * 1.400381717) (by norm_num)).1
    have hs1 : (0.8439944470327 : ℝ) ≤ erfSum (2 * 7) (1.400381717 : ℝ) := by
      simp only [erfSum, Finset.sum_range_succ, Finset.sum_range_zero]
      norm_num [Nat.factorial]
    have hs2 : (0.1407078041818 : ℝ) ≤ expSum (2 * 7) ((1.400381717 : ℝ) * 1.400381717) := by
      simp only [expSum, Finset.sum_range_succ, Finset.sum_range_zero]
      norm_num [Nat.factorial]
    have hp : (0.3386738991457 : ℝ) ≤ phiPoly (tOf (1.400381717 : ℝ)) := by
      rw [tOf_d5]
      norm_num [phiPoly]
    obtain ⟨hk1, _⟩ := kappa_bounds
    have e1 : Real.exp (-(1.400381717 : ℝ) * 1.400381717) = Real.exp (-((1.400381717 : ℝ) * 1.400381717)) := by
      rw [neg_mul]
    have hq : (0.3386738991457 : ℝ) * 0.1407078041818 ≤ Qf Real.exp 1.400381717 := by
      unfold Qf
      rw [e1]
      exact mul_le_mul hp (le_trans hs2 h2) (by norm_num) (le_trans (by norm_num) hp)
    have hk : (1.128379167095512 : ℝ) * 0.8439944470327 ≤ kappa * erfSum (2 * 7) (1.400381717 : ℝ) :=
      mul_le_mul hk1 hs1 (by norm_num) (le_trans (by norm_num) hk1)
    unfold Gf
    linarith
  -- The error at the local minimum near `u = 2.130382302`.
  · have tOf_d6 :
        tOf (2.130382302 : ℝ) = (5000000000000000 / 8489471408663561) := by
      unfold tOf
      norm_num
    have hd : (0 : ℝ) ≤ 2.130382302 := by norm_num
    have h1 := (erfcN_series_bounds 10 (2.130382302 : ℝ) hd).2
    have h2 := (exp_series_bounds 11 ((2.130382302 : ℝ) * 2.130382302) (by norm_num)).2
    have hs1 : erfSum (2 * 10 + 1) (2.130382302 : ℝ) ≤ (0.8839330999345 : ℝ) := by
      simp only [erfSum, Finset.sum_range_succ, Finset.sum_range_zero]
      norm_num [Nat.factorial]
    have hs2 : expSum (2 * 11 + 1) ((2.130382302 : ℝ) * 2.130382302) ≤ (0.0106891631035 : ℝ) := by
      simp only [expSum, Finset.sum_range_succ, Finset.sum_range_zero]
      norm_num [Nat.factorial]
    have hp : phiPoly (tOf (2.130382302 : ℝ)) ≤ (0.2421621363872 : ℝ) := by
      rw [tOf_d6]
      norm_num [phiPoly]
    have hp0 : 0 ≤ phiPoly (tOf (2.130382302 : ℝ)) := phiPoly_tOf_nonneg _ hd
    obtain ⟨hk0, hk2⟩ := kappa_bounds
    have e1 : Real.exp (-(2.130382302 : ℝ) * 2.130382302) = Real.exp (-((2.130382302 : ℝ) * 2.130382302)) := by
      rw [neg_mul]
    have hq : Qf Real.exp 2.130382302 ≤ (0.2421621363872 : ℝ) * 0.0106891631035 := by
      unfold Qf
      rw [e1]
      exact mul_le_mul hp (le_trans h2 hs2) (Real.exp_pos _).le (by norm_num)
    have hs0 : 0 ≤ erfSum (2 * 10 + 1) (2.130382302 : ℝ) := by
      have := erfcN_le_one (2.130382302 : ℝ) hd
      have hkp := kappa_pos
      by_contra hneg
      push_neg at hneg
      have : kappa * erfSum (2 * 10 + 1) (2.130382302 : ℝ) < 0 := mul_neg_of_pos_of_neg hkp hneg
      linarith
    have hk : kappa * erfSum (2 * 10 + 1) (2.130382302 : ℝ) ≤ (1.128379167095513 : ℝ) * 0.8839330999345 :=
      mul_le_mul hk2 hs1 hs0 (by norm_num)
    unfold Gf
    linarith

/-- The error of the approximation of `erfc` is at most `3·10⁻⁷` in absolute value on
`[0, ∞)`: between two consecutive points the error is monotone up to `10⁻⁸·(d₆ - 0)`, so it
stays between its values at the end points, widened by that much. -/
theorem Gf_bound (u : ℝ) (hu : 0 ≤ u) : -0.0000003 ≤ Gf u ∧ Gf u ≤ 0.0000003 := by
  obtain ⟨s0, s1, s2, s3, s4, s5, s6⟩ := rhoPoly_sign
  obtain ⟨g0, g1, g2, g3, g4, g5, g6⟩ := Gf_checkpoints
  have hη : (0 : ℝ) ≤ 0.00000001 := by norm_num
  by_cases c1 : u ≤ 0.045140616
  · have a := (Gf_variation 0 0.00000001 (le_refl 0) hη).1 0.045140616 s0 0 u (le_refl _) hu c1
    have b := (Gf_variation 0 0.00000001 (le_refl 0) hη).1 0.045140616 s0 u 0.045140616 hu c1 (le_refl _)
    constructor <;> linarith
  by_cases c2 : u ≤ 0.222318774
  · have a := (Gf_variation 0.045140616 0.00000001 (by norm_num) hη).2.1 0.222318774 s1 0.045140616 u (le_refl _) (not_le.mp c1).le c2
    have b := (Gf_variation 0.045140616 0.00000001 (by norm_num) hη).2.1 0.222318774 s1 u 0.222318774 (not_le.mp c1).le c2 (le_refl _)
    constructor <;> linarith
  by_cases c3 : u ≤ 0.507611637
  · have a := (Gf_variation 0.222318774 0.00000001 (by norm_num) hη).1 0.507611637 s2 0.222318774 u (le_refl _) (not_le.mp c2).le c3
    have b := (Gf_variation 0.222318774 0.00000001 (by norm_num) hη).1 0.507611637 s2 u 0.507611637 (not_le.mp c2).le c3 (le_refl _)
    constructor <;> linarith
  by_cases c4 : u ≤ 0.895740490
  · have a := (Gf_variation 0.507611637 0.00000001 (by norm_num) hη).2.1 0.895740490 s3 0.507611637 u (le_refl _) (not_le.mp c3).le c4
    have b := (Gf_variation 0.507611637 0.00000001 (by norm_num) hη).2.1 0.895740490 s3 u 0.895740490 (not_le.mp c3).le c4 (le_refl _)
    constructor <;> linarith
  by_cases c5 : u ≤ 1.400381717
  · have a := (Gf_variation 0.895740490 0.00000001 (by norm_num) hη).1 1.400381717 s4 0.895740490 u (le_refl _) (not_le.mp c4).le c5
    have b := (Gf_variation 0.895740490 0.00000001 (by norm_num) hη).1 1.400381717 s4 u 1.400381717 (not_le.mp c4).le c5 (le_refl _)
    constructor <;> linarith
  by_cases c6 : u ≤ 2.130382302
  · have a := (Gf_variation 1.400381717 0.00000001 (by norm_num) hη).2.1 2.130382302 s5 1.400381717 u (le_refl _) (not_le.mp c5).le c6
    have b := (Gf_variation 1.400381717 0.00000001 (by norm_num) hη).2.1 2.130382302 s5 u 2.130382302 (not_le.mp c5).le c6 (le_refl _)
    constructor <;> linarith
  have t := (Gf_variation 2.130382302 0.00000001 (by norm_num) hη).2.2 s6 u (not_le.mp c6).le
  constructor <;> linarith [t.1, t.2]

/-- C17. Accuracy of `phi`: for every real `x`, the program's `phi(x)` (in exact real
arithmetic, with the true `sqrt` and `exp`) differs from the standard normal cumulative
distribution function `Φ(x)` by at most `1.5·10⁻⁷` in absolute value. -/
theorem phi_accuracy (x : ℝ) :
    |phi Real.sqrt Real.exp x
        - ProbabilityTheory.cdf (ProbabilityTheory.gaussianReal 0 1) x| ≤ 0.00000015 := by
  have hs : 0 < Real.sqrt 2 := Real.sqrt_pos.mpr (by norm_num)
  have tail_eq : ∀ y : ℝ, phiTail Real.sqrt Real.exp y = Qf Real.exp (y / Real.sqrt 2) := by
    intro y
    simp only [phiTail, Qf, tOf]
    norm_num
  show |phi Real.sqrt Real.exp x - stdNormalCDF x| ≤ 0.00000015
  rcases lt_or_le x 0 with hx | hx
  · -- for `x < 0` the error of `phi` is minus half the error of the approximation of `erfc`
    have e : Real.sqrt 2 * (-x / Real.sqrt 2) = -x := by
      field_simp
      ring
    have hsym := stdNormalCDF_calculus.2 x
    have key : phi Real.sqrt Real.exp x - stdNormalCDF x = -(Gf (-x / Real.sqrt 2) / 2) := by
      rw [phi_of_neg _ _ x hx, tail_eq]
      unfold Gf erfcN
      rw [e]
      linarith
    rw [key, abs_le]
    have := Gf_bound (-x / Real.sqrt 2) (div_nonneg (by linarith) hs.le)
    constructor <;> linarith [this.1, this.2]
  · -- for `x ≥ 0` the error of `phi` is half the error of the approximation of `erfc`
    have e : Real.sqrt 2 * (x / Real.sqrt 2) = x := by field_simp
    have key : phi Real.sqrt Real.exp x - stdNormalCDF x = Gf (x / Real.sqrt 2) / 2 := by
      rw [phi_of_nonneg _ _ x hx, tail_eq]
      unfold Gf erfcN
      rw [e]
      ring
    rw [key, abs_le]
    have := Gf_bound (x / Real.sqrt 2) (div_nonneg hx hs.le)
    constructor <;> linarith [this.1, this.2]

end Discretize
